import Mathlib

/-!
A verification development for the regex-to-NFA builder of
`src/src/nfa.rs` (together with `src/src/token.rs`).

Embedding notes.

* Rust's `State` objects are reference-counted (`Arc<State>`) with interior
  mutability; every state carries a globally unique `id` handed out by the
  mutex-guarded `ID_ALLOCATOR`, and two states are equal exactly when their
  ids are.  We therefore embed the state graph as an arena: a state's
  outgoing transitions store the target's `id`, an `NFA` owns a list of
  state records, and mutating a state through a shared reference becomes an
  update-by-id of the unique record carrying that id.  Within one build the
  allocator never reuses an id, so update-by-id coincides with Rust's
  update-by-object.  The allocator is modelled by threading the next free
  id through the build; a single build starting from 0 produces a structure
  isomorphic to the Rust one (the global counter only shifts all ids by a
  constant).
* Every `unwrap()` that can panic is modelled as an `Except` error with a
  distinct code naming the panic site; `new_from_token` hence returns
  `Except BuildPanic NFA`.
* Rust `Vec` stacks (`push`/`pop`/`last` at the back) are Lean lists with
  the head as the top of the stack.
-/

namespace OvLex

/-- `Transition` of `nfa.rs`: `Epsilon` or `Char(char)`. -/
inductive Transition where
  | epsilon : Transition
  | char : Char → Transition
deriving DecidableEq

/-- A state record: `State` plus its `StateInner` from `nfa.rs`.
`transitions` stores `(Transition, target id)` pairs in push order;
`accepting` is the mutable accepting flag. -/
structure State where
  id : Nat
  transitions : List (Transition × Nat)
  accepting : Bool
deriving DecidableEq

/-- `NFA` of `nfa.rs`: the owned states (in `Vec` order) and the id of the
designated initial state. -/
structure NFA where
  states : List State
  initial : Nat
deriving DecidableEq

/-- `Token` of `token.rs`. -/
structure Token where
  kind : String
  value : String

/-- The `Symbol` operator-stack markers of `nfa.rs`. -/
inductive Symbol where
  | leftParen : Symbol
  | or : Symbol
deriving DecidableEq

/-- One code per `unwrap()` site of `new_from_token` that can panic. -/
inductive BuildPanic where
  /-- `token.chars().nth(idx + 1).unwrap()` in the literal branch. -/
  | lookaheadFail : BuildPanic
  /-- `symbol_stack.last().unwrap()` in the `)` branch. -/
  | symbolStackEmpty : BuildPanic
  /-- an `nfa_stack` pop or `last_mut` on an empty stack. -/
  | nfaStackEmpty : BuildPanic
  /-- `nfa.states.last_mut().unwrap()` on an NFA with no states. -/
  | statesEmpty : BuildPanic
deriving DecidableEq

/-- Look a state up by id: the arena reading of following an `Arc<State>`.
Ids are unique within a build, so the first hit is the only one. -/
def lookupState (S : List State) (q : Nat) : Option State :=
  S.find? (fun st => st.id == q)

/-- Append one `(transition, target)` pair to the state with id `q`:
`StateInner::add_transition` reached through a shared `Arc`. -/
def addTransitionTo (S : List State) (q : Nat) (t : Transition) (tgt : Nat) :
    List State :=
  S.map (fun st =>
    if st.id = q then
      { st with transitions := st.transitions ++ [(t, tgt)] }
    else st)

/-- `NFA::new()`: one fresh non-accepting state that is also the initial
state (`nid` is the id the allocator hands out). -/
def NFA.new (nid : Nat) : NFA :=
  { states := [{ id := nid, transitions := [], accepting := false }], initial := nid }

/-- `NFA::add_state(accepting)`: push one fresh state with the given flag. -/
def NFA.add_state (n : NFA) (nid : Nat) (accepting : Bool) : NFA :=
  { n with states := n.states ++ [{ id := nid, transitions := [], accepting }] }

/-- `NFA::connect_other(other)`: clear every accepting state of `self`,
give it an Epsilon transition to `other.initial`, then absorb `other`'s
states.  `self` keeps its own initial state. -/
def NFA.connect_other (self other : NFA) : NFA :=
  { states :=
      (self.states.map (fun st =>
        if st.accepting then
          { st with
              accepting := false,
              transitions := st.transitions ++ [(Transition.epsilon, other.initial)] }
        else st)) ++ other.states,
    initial := self.initial }

/-- `NFA::merge_other(other)`: one fresh state (id `nid`, just created, so
its transition list starts empty and receives the two Epsilon transitions,
to `self.initial` then `other.initial`), appended to `self`'s states, made
the new initial; then `other`'s states are absorbed. -/
def NFA.merge_other (self other : NFA) (nid : Nat) : NFA :=
  { states :=
      (self.states ++
        [{ id := nid,
           transitions := [(Transition.epsilon, self.initial),
                           (Transition.epsilon, other.initial)],
           accepting := false }]) ++ other.states,
    initial := nid }

/-- The literal branch of `new_from_token` on character `c` with lookahead
`nc`: two fresh states `state1` (id `nid`) and `state2` (id `nid + 1`), an
Epsilon transition from the last state of the NFA (the record with id
`lastId`, mutated through its `Arc`) to `state1`, a `Char c` transition
from `state1` to `state2`, and `state2` accepting iff `nc` is `|` or `)`. -/
def extendLit (nfa : NFA) (lastId : Nat) (c nc : Char) (nid : Nat) : NFA :=
  { states :=
      addTransitionTo nfa.states lastId Transition.epsilon nid ++
        [{ id := nid, transitions := [(Transition.char c, nid + 1)], accepting := false },
         { id := nid + 1, transitions := [],
           accepting := nc == '|' || nc == ')' }],
    initial := nfa.initial }

/-- The `)` branch of `new_from_token`: pop and `handle_symbol` until the
top of the symbol stack is `(` (panicking if the stack empties), then pop
the `(`.  `handle_symbol` pops one symbol and two NFAs `nfa1` (top) and
`nfa2`, and for `Or` pushes `nfa1.merge_other(nfa2)`. -/
def reduceToParen : List Symbol → List NFA → Nat →
    Except BuildPanic (List Symbol × List NFA × Nat)
  | [], _, _ => Except.error BuildPanic.symbolStackEmpty
  | Symbol.leftParen :: sy, nfas, nid => Except.ok (sy, nfas, nid)
  | Symbol.or :: sy, nfas, nid =>
    match nfas with
    | nfa1 :: nfa2 :: rest =>
        reduceToParen sy (nfa1.merge_other nfa2 nid :: rest) (nid + 1)
    | _ => Except.error BuildPanic.nfaStackEmpty

/-- The literal (default) branch of `new_from_token` acting on the NFA
stack: take the NFA on top of the stack (`nfa_stack.last_mut().unwrap()`),
read its last state (`nfa.states.last_mut().unwrap()`), read the lookahead
(`token.chars().nth(idx + 1).unwrap()`), and extend the top NFA with the
two fresh states of `extendLit`. -/
def literalStep (c : Char) (lookahead : Option Char) (nfas : List NFA) (nid : Nat) :
    Except BuildPanic (List NFA × Nat) :=
  match nfas with
  | [] => Except.error BuildPanic.nfaStackEmpty
  | nfa :: rest =>
    match nfa.states.getLast? with
    | none => Except.error BuildPanic.statesEmpty
    | some last =>
      match lookahead with
      | none => Except.error BuildPanic.lookaheadFail
      | some nc => Except.ok (extendLit nfa last.id c nc nid :: rest, nid + 2)

/-- The character loop of `new_from_token` over the remaining characters of
the wrapped pattern.  The one-character lookahead `token.chars().nth(idx+1)`
is the head of the remaining list. -/
def scan : List Char → List Symbol × List NFA × Nat →
    Except BuildPanic (List Symbol × List NFA × Nat)
  | [], st => Except.ok st
  | c :: cs, (sy, nfas, nid) =>
    if c = '(' then
      scan cs (Symbol.leftParen :: sy, NFA.new nid :: nfas, nid + 1)
    else if c = ')' then
      match reduceToParen sy nfas nid with
      | Except.ok st' => scan cs st'
      | Except.error e => Except.error e
    else if c = '|' then
      scan cs (Symbol.or :: sy, NFA.new nid :: nfas, nid + 1)
    else
      match literalStep c cs.head? nfas nid with
      | Except.ok (nfas', nid') => scan cs (sy, nfas', nid')
      | Except.error e => Except.error e

/-- `NFA::new_from_token`: wrap the pattern as `(pattern)`, run the
two-stack scan, and return the final `nfa_stack.pop().unwrap()`. -/
def NFA.new_from_token (token : Token) : Except BuildPanic NFA :=
  match scan (('(' :: token.value.data) ++ [')']) ([], [], 0) with
  | Except.ok (_, nfa :: _, _) => Except.ok nfa
  | Except.ok (_, [], _) => Except.error BuildPanic.nfaStackEmpty
  | Except.error e => Except.error e

/-- NFA acceptance from state `q` over the arena `S`: the run consumes the
whole input and ends in an accepting state.  This is exactly what the
spec's epsilon-closure simulation computes (epsilon steps are free, a
`Char` step consumes one symbol, and an empty remainder is accepted iff an
accepting state is in reach). -/
inductive Accepts (S : List State) : Nat → List Char → Prop where
  | done : ∀ q st, lookupState S q = some st → st.accepting = true →
      Accepts S q []
  | viaChar : ∀ q st c q' w, lookupState S q = some st →
      (Transition.char c, q') ∈ st.transitions →
      Accepts S q' w → Accepts S q (c :: w)
  | viaEps : ∀ q st q' w, lookupState S q = some st →
      (Transition.epsilon, q') ∈ st.transitions →
      Accepts S q' w → Accepts S q w

/-- The language of an NFA: acceptance from its initial state. -/
def NFA.accepts (n : NFA) (w : List Char) : Prop :=
  Accepts n.states n.initial w

/-- Reachability in the arena `S`: `Reach S a b` when state `b` is
reachable from state `a` by following zero or more transitions. -/
inductive Reach (S : List State) : Nat → Nat → Prop where
  | refl : ∀ q, Reach S q q
  | step : ∀ a b st t c, Reach S a b → lookupState S b = some st →
      (t, c) ∈ st.transitions → Reach S a c

deriving instance DecidableEq for Except

/-- The ids of the states of an arena, in order. -/
def idsOf (S : List State) : List Nat := S.map State.id

/-- Arena `T` extends arena `S`: every state of `S` is still found under
its id, with the same accepting flag and at least its old transitions. -/
def Extends (S T : List State) : Prop :=
  ∀ q st, lookupState S q = some st →
    ∃ st', lookupState T q = some st' ∧ st'.accepting = st.accepting ∧
      ∀ tr ∈ st.transitions, tr ∈ st'.transitions

/-- Every transition of the arena stays inside the arena. -/
def SelfContained (S : List State) : Prop :=
  ∀ st ∈ S, ∀ tr ∈ st.transitions, tr.2 ∈ idsOf S

/-- Well-formedness of one NFA during a build whose next fresh id is
`bound`: nonempty state list, duplicate-free ids, all ids below `bound`,
the initial state a member, and no transition leaving the NFA. -/
structure WfNFA (n : NFA) (bound : Nat) : Prop where
  nonempty : n.states ≠ []
  nodup : (idsOf n.states).Nodup
  bounded : ∀ q ∈ idsOf n.states, q < bound
  init_mem : n.initial ∈ idsOf n.states
  closed : SelfContained n.states

/-- Every state of the NFA is reachable from its initial state. -/
def ReachAll (n : NFA) : Prop :=
  ∀ st ∈ n.states, Reach n.states n.initial st.id

/-- Well-formedness of the whole operand stack: each member is well formed
and distinct members use disjoint id sets. -/
def StackWf (ns : List NFA) (bound : Nat) : Prop :=
  (∀ n ∈ ns, WfNFA n bound) ∧
    List.Pairwise (fun a b => ∀ q, q ∈ idsOf a.states → q ∉ idsOf b.states) ns

/-- The builder's running invariant: a well-formed stack all of whose
members have every state reachable from their initial state. -/
def BuildInv (nfas : List NFA) (nid : Nat) : Prop :=
  StackWf nfas nid ∧ ∀ n ∈ nfas, ReachAll n

/-- Every accepting state of the NFA has no outgoing transitions (it is a
pure chain tail). -/
def AccNoTrans (n : NFA) : Prop :=
  ∀ st ∈ n.states, st.accepting = true → st.transitions = []

/-- `j` pending-alternation markers. -/
def orRep : Nat → List Symbol
  | 0 => []
  | j + 1 => Symbol.or :: orRep j

/-- The sequence of `merge_other` reductions the `)` branch performs: fold
the top NFA over the NFAs below it. -/
def mergeFold : NFA → List NFA → Nat → NFA × Nat
  | n, [], nid => (n, nid)
  | n, n2 :: ns, nid => mergeFold (n.merge_other n2 nid) ns (nid + 1)

/-- The chain of states the literal branch builds for a word `w` starting
at fresh id `m`: per character one `Char` state and one joint state, the
joint of the last character accepting (its lookahead is `|` or `)`), every
earlier joint wired by Epsilon to the next `Char` state. -/
def chainFrom : List Char → Nat → List State
  | [], _ => []
  | c :: cs, m =>
    { id := m, transitions := [(Transition.char c, m + 1)], accepting := false } ::
      { id := m + 1,
        transitions :=
          if cs = [] then [] else [(Transition.epsilon, m + 2)],
        accepting := decide (cs = []) } ::
      chainFrom cs (m + 2)

/-- The finished one-alternative NFA for the word `w` scanned inside a
fresh scope whose initial state has id `i`. -/
def fullChain (w : List Char) (i : Nat) : NFA :=
  { states :=
      { id := i,
        transitions := if w = [] then [] else [(Transition.epsilon, i + 1)],
        accepting := false } :: chainFrom w (i + 1),
    initial := i }

/-- The characters of the alternation pattern `w | w2 | ... `. -/
def alternationChars : List Char → List (List Char) → List Char
  | w, [] => w
  | w, w2 :: ws => w ++ '|' :: alternationChars w2 ws

/-- The operand stack (top first) and next fresh id the builder has
produced right before the final `)` of the wrapped alternation pattern:
one literal chain per word, the first word's chain at the bottom. -/
def chainStack : List Char → List (List Char) → Nat → List NFA × Nat
  | w, [], nid => ([fullChain w nid], nid + 1 + 2 * w.length)
  | w, w2 :: ws, nid =>
    let p := chainStack w2 ws (nid + 1 + 2 * w.length)
    (p.1 ++ [fullChain w nid], p.2)

/-- Does the NFA contain a `Char c` transition anywhere?  Used to show that
unsupported syntax characters end up as literal input symbols. -/
def hasCharTransition (n : NFA) (c : Char) : Bool :=
  n.states.any (fun st => st.transitions.any (fun tr => tr.1 == Transition.char c))

/-- Is this build result the lookahead-`unwrap` panic? -/
def isLookaheadPanic {α : Type} : Except BuildPanic α → Bool
  | Except.error BuildPanic.lookaheadFail => true
  | _ => false

theorem scan_nil (st : List Symbol × List NFA × Nat) : scan [] st = Except.ok st := rfl

theorem scan_lparen (cs : List Char) (sy : List Symbol) (nfas : List NFA) (nid : Nat) :
    scan ('(' :: cs) (sy, nfas, nid) =
      scan cs (Symbol.leftParen :: sy, NFA.new nid :: nfas, nid + 1) := rfl

theorem scan_pipe (cs : List Char) (sy : List Symbol) (nfas : List NFA) (nid : Nat) :
    scan ('|' :: cs) (sy, nfas, nid) =
      scan cs (Symbol.or :: sy, NFA.new nid :: nfas, nid + 1) := rfl

theorem scan_rparen (cs : List Char) (sy : List Symbol) (nfas : List NFA) (nid : Nat) :
    scan (')' :: cs) (sy, nfas, nid) =
      match reduceToParen sy nfas nid with
      | Except.ok st' => scan cs st'
      | Except.error e => Except.error e := rfl

theorem scan_other (c : Char) (cs : List Char) (sy : List Symbol)
    (nfas : List NFA) (nid : Nat)
    (h1 : c ≠ '(') (h2 : c ≠ ')') (h3 : c ≠ '|') :
    scan (c :: cs) (sy, nfas, nid) =
      match literalStep c cs.head? nfas nid with
      | Except.ok (nfas', nid') => scan cs (sy, nfas', nid')
      | Except.error e => Except.error e := by
  simp only [scan]
  rw [if_neg h1, if_neg h2, if_neg h3]

theorem literalStep_ok (c nc : Char) (nfa : NFA) (rest : List NFA) (nid : Nat)
    (last : State) (hg : nfa.states.getLast? = some last) :
    literalStep c (some nc) (nfa :: rest) nid =
      Except.ok (extendLit nfa last.id c nc nid :: rest, nid + 2) := by
  simp only [literalStep, hg]

theorem scan_literal (c nc : Char) (cs : List Char) (sy : List Symbol)
    (nfa : NFA) (rest : List NFA) (nid : Nat) (last : State)
    (h1 : c ≠ '(') (h2 : c ≠ ')') (h3 : c ≠ '|')
    (hg : nfa.states.getLast? = some last) :
    scan (c :: nc :: cs) (sy, nfa :: rest, nid) =
      scan (nc :: cs) (sy, extendLit nfa last.id c nc nid :: rest, nid + 2) := by
  rw [scan_other c (nc :: cs) sy (nfa :: rest) nid h1 h2 h3]
  rw [List.head?_cons, literalStep_ok c nc nfa rest nid last hg]

theorem getLast?_append_singleton {α : Type} (l : List α) (a : α) :
    (l ++ [a]).getLast? = some a := by
  induction l with
  | nil => rfl
  | cons b l ih =>
    cases l with
    | nil => rfl
    | cons c l => simpa using ih

theorem lookupState_nil (q : Nat) : lookupState [] q = none := rfl

theorem lookupState_cons (st : State) (S : List State) (q : Nat) :
    lookupState (st :: S) q =
      if st.id = q then some st else lookupState S q := by
  by_cases h : st.id = q
  · simp [lookupState, List.find?, h]
  · have hb : (st.id == q) = false := beq_eq_false_iff_ne.2 h
    simp [lookupState, List.find?, hb, h]

theorem lookupState_cons_self {a : State} {S : List State} :
    lookupState (a :: S) a.id = some a := by
  rw [lookupState_cons, if_pos rfl]

theorem lookupState_cons_ne {a : State} {S : List State} {q : Nat}
    (h : a.id ≠ q) : lookupState (a :: S) q = lookupState S q := by
  rw [lookupState_cons, if_neg h]

theorem mem_idsOf {S : List State} {q : Nat} :
    q ∈ idsOf S ↔ ∃ st ∈ S, st.id = q := by
  simp [idsOf]

theorem lookupState_mem {S : List State} {q : Nat} {st : State}
    (h : lookupState S q = some st) : st ∈ S ∧ st.id = q := by
  induction S with
  | nil => cases h
  | cons a S ih =>
    rw [lookupState_cons] at h
    split_ifs at h with h0
    · cases h
      exact ⟨List.mem_cons_self _ _, h0⟩
    · obtain ⟨hm, hi⟩ := ih h
      exact ⟨List.mem_cons_of_mem _ hm, hi⟩

theorem lookupState_eq_none {S : List State} {q : Nat} :
    lookupState S q = none ↔ q ∉ idsOf S := by
  induction S with
  | nil => simp [lookupState_nil, idsOf]
  | cons a S ih =>
    rw [lookupState_cons]
    by_cases h0 : a.id = q
    · simp [h0, idsOf]
    · rw [if_neg h0, ih]
      simp only [idsOf, List.map_cons, List.mem_cons]
      constructor
      · intro h hq
        rcases hq with hq | hq
        · exact h0 hq.symm
        · exact h hq
      · intro h hq
        exact h (Or.inr hq)

theorem lookupState_isSome_of_mem {S : List State} {q : Nat}
    (h : q ∈ idsOf S) : ∃ st, lookupState S q = some st := by
  cases hl : lookupState S q with
  | none => exact absurd (lookupState_eq_none.1 hl) (by simp [h])
  | some st => exact ⟨st, rfl⟩

theorem lookupState_of_mem {S : List State} {st : State}
    (hnd : (idsOf S).Nodup) (hm : st ∈ S) : lookupState S st.id = some st := by
  induction S with
  | nil => cases hm
  | cons a S ih =>
    simp only [idsOf, List.map_cons, List.nodup_cons] at hnd
    rw [lookupState_cons]
    rcases List.mem_cons.1 hm with rfl | hm'
    · rw [if_pos rfl]
    · have hne : a.id ≠ st.id := by
        intro he
        exact hnd.1 (by rw [he]; exact List.mem_map.2 ⟨st, hm', rfl⟩)
      rw [if_neg hne]
      exact ih hnd.2 hm'

theorem lookupState_append_left {S T : List State} {q : Nat} {st : State}
    (h : lookupState S q = some st) : lookupState (S ++ T) q = some st := by
  induction S with
  | nil => cases h
  | cons a S ih =>
    rw [lookupState_cons] at h
    rw [List.cons_append, lookupState_cons]
    split_ifs at h with h0
    · rw [if_pos h0]; exact h
    · rw [if_neg h0]; exact ih h

theorem lookupState_append_right {S T : List State} {q : Nat}
    (h : q ∉ idsOf S) : lookupState (S ++ T) q = lookupState T q := by
  induction S with
  | nil => rfl
  | cons a S ih =>
    rw [List.cons_append, lookupState_cons]
    have h1 : a.id ≠ q := by
      intro he
      exact h (mem_idsOf.2 ⟨a, List.mem_cons_self _ _, he⟩)
    rw [if_neg h1]
    exact ih (fun hq => h (by simp [idsOf] at hq ⊢; tauto))

theorem addTransitionTo_cons (a : State) (S : List State) (q : Nat)
    (t : Transition) (tgt : Nat) :
    addTransitionTo (a :: S) q t tgt =
      (if a.id = q then { a with transitions := a.transitions ++ [(t, tgt)] } else a) ::
        addTransitionTo S q t tgt := rfl

theorem idsOf_addTransitionTo (S : List State) (q : Nat) (t : Transition) (tgt : Nat) :
    idsOf (addTransitionTo S q t tgt) = idsOf S := by
  induction S with
  | nil => rfl
  | cons a S ih =>
    rw [addTransitionTo_cons]
    simp only [idsOf, List.map_cons]
    split_ifs with h0 <;> simp only [idsOf] at ih <;> rw [ih]

theorem lookupState_addTransitionTo_ne {S : List State} {q q' : Nat}
    (t : Transition) (tgt : Nat) (h : q' ≠ q) :
    lookupState (addTransitionTo S q t tgt) q' = lookupState S q' := by
  induction S with
  | nil => rfl
  | cons a S ih =>
    rw [addTransitionTo_cons]
    by_cases h0 : a.id = q
    · rw [if_pos h0, lookupState_cons, lookupState_cons]
      have hne : a.id ≠ q' := by
        rw [h0]
        exact fun he => h he.symm
      rw [if_neg hne]
      have hne' :
          ({ a with transitions := a.transitions ++ [(t, tgt)] } : State).id ≠ q' := hne
      rw [if_neg hne']
      exact ih
    · rw [if_neg h0, lookupState_cons, lookupState_cons]
      by_cases h1 : a.id = q'
      · rw [if_pos h1, if_pos h1]
      · rw [if_neg h1, if_neg h1]
        exact ih

theorem lookupState_addTransitionTo_eq (S : List State) (q : Nat)
    (t : Transition) (tgt : Nat) :
    lookupState (addTransitionTo S q t tgt) q =
      (lookupState S q).map
        (fun st => { st with transitions := st.transitions ++ [(t, tgt)] }) := by
  induction S with
  | nil => rfl
  | cons a S ih =>
    rw [addTransitionTo_cons]
    by_cases h0 : a.id = q
    · rw [if_pos h0, lookupState_cons, lookupState_cons]
      have h1 : ({ a with transitions := a.transitions ++ [(t, tgt)] } : State).id = q := h0
      rw [if_pos h1, if_pos h0]
      rfl
    · rw [if_neg h0, lookupState_cons, lookupState_cons, if_neg h0, if_neg h0]
      exact ih

theorem Reach.trans {S : List State} {a b c : Nat}
    (h1 : Reach S a b) (h2 : Reach S b c) : Reach S a c := by
  induction h2 with
  | refl => exact h1
  | step b2 st t c2 hr hl hm ih => exact Reach.step _ b2 st t c2 ih hl hm

theorem accepts_of_extends {S T : List State} (h : Extends S T) {q : Nat}
    {w : List Char} (ha : Accepts S q w) : Accepts T q w := by
  induction ha with
  | done q st hl hacc =>
    obtain ⟨st', hl', hac', _⟩ := h q st hl
    exact Accepts.done q st' hl' (by rw [hac', hacc])
  | viaChar q st c q' w hl hm _ ih =>
    obtain ⟨st', hl', _, htr'⟩ := h q st hl
    exact Accepts.viaChar q st' c q' w hl' (htr' _ hm) ih
  | viaEps q st q' w hl hm _ ih =>
    obtain ⟨st', hl', _, htr'⟩ := h q st hl
    exact Accepts.viaEps q st' q' w hl' (htr' _ hm) ih

theorem reach_of_extends {S T : List State} (h : Extends S T) {a b : Nat}
    (hr : Reach S a b) : Reach T a b := by
  induction hr with
  | refl => exact Reach.refl a
  | step b2 st t c2 hr2 hl hm ih =>
    obtain ⟨st', hl', _, htr'⟩ := h b2 st hl
    exact Reach.step a b2 st' t c2 ih hl' (htr' _ hm)

theorem accepts_restrict_down {A T : List State}
    (hsc : SelfContained A)
    (hag : ∀ q, q ∈ idsOf A → lookupState T q = lookupState A q)
    {q : Nat} {w : List Char} (h : Accepts T q w) :
    q ∈ idsOf A → Accepts A q w := by
  induction h with
  | done q st hl hacc =>
    intro hq
    rw [hag q hq] at hl
    exact Accepts.done q st hl hacc
  | viaChar q st c q' w hl hm _ ih =>
    intro hq
    rw [hag q hq] at hl
    have hmem := (lookupState_mem hl).1
    exact Accepts.viaChar q st c q' w hl hm (ih (hsc st hmem _ hm))
  | viaEps q st q' w hl hm _ ih =>
    intro hq
    rw [hag q hq] at hl
    have hmem := (lookupState_mem hl).1
    exact Accepts.viaEps q st q' w hl hm (ih (hsc st hmem _ hm))

theorem accepts_restrict_up {A T : List State}
    (hag : ∀ q, q ∈ idsOf A → lookupState T q = lookupState A q)
    {q : Nat} {w : List Char} (h : Accepts A q w) :
    Accepts T q w := by
  induction h with
  | done q st hl hacc =>
    have hq0 : q ∈ idsOf A :=
      mem_idsOf.2 ⟨st, (lookupState_mem hl).1, (lookupState_mem hl).2⟩
    exact Accepts.done q st (by rw [hag q hq0]; exact hl) hacc
  | viaChar q st c q' w hl hm _ ih =>
    have hq0 : q ∈ idsOf A :=
      mem_idsOf.2 ⟨st, (lookupState_mem hl).1, (lookupState_mem hl).2⟩
    exact Accepts.viaChar q st c q' w (by rw [hag q hq0]; exact hl) hm ih
  | viaEps q st q' w hl hm _ ih =>
    have hq0 : q ∈ idsOf A :=
      mem_idsOf.2 ⟨st, (lookupState_mem hl).1, (lookupState_mem hl).2⟩
    exact Accepts.viaEps q st q' w (by rw [hag q hq0]; exact hl) hm ih

theorem accepts_restrict_of_agree {A T : List State}
    (hsc : SelfContained A)
    (hag : ∀ q, q ∈ idsOf A → lookupState T q = lookupState A q)
    {q : Nat} (hq : q ∈ idsOf A) {w : List Char} :
    Accepts T q w ↔ Accepts A q w :=
  ⟨fun h => accepts_restrict_down hsc hag h hq, fun h => accepts_restrict_up hag h⟩

theorem idsOf_append (S T : List State) : idsOf (S ++ T) = idsOf S ++ idsOf T :=
  List.map_append _ _ _

theorem mem_addTransitionTo {S : List State} {q : Nat} {t : Transition}
    {tgt : Nat} {st' : State} :
    st' ∈ addTransitionTo S q t tgt ↔
      ∃ st ∈ S,
        (if st.id = q then
          { st with transitions := st.transitions ++ [(t, tgt)] }
        else st) = st' := by
  simp [addTransitionTo, List.mem_map]

theorem WfNFA.mono {n : NFA} {b b' : Nat} (h : WfNFA n b) (hb : b ≤ b') :
    WfNFA n b' :=
  ⟨h.nonempty, h.nodup, fun q hq => lt_of_lt_of_le (h.bounded q hq) hb,
    h.init_mem, h.closed⟩

theorem merge_lookup_left {A B : NFA} {nid : Nat} {q : Nat}
    (hq : q ∈ idsOf A.states) :
    lookupState (A.merge_other B nid).states q = lookupState A.states q := by
  obtain ⟨st, hst⟩ := lookupState_isSome_of_mem hq
  show lookupState ((A.states ++ [_]) ++ B.states) q = _
  rw [lookupState_append_left (lookupState_append_left hst), hst]

theorem merge_lookup_mid {A B : NFA} {nid : Nat}
    (hA : ∀ q ∈ idsOf A.states, q < nid) :
    lookupState (A.merge_other B nid).states nid =
      some
        { id := nid,
          transitions := [(Transition.epsilon, A.initial),
                          (Transition.epsilon, B.initial)],
          accepting := false } := by
  have hnotA : nid ∉ idsOf A.states := fun hm => lt_irrefl _ (hA _ hm)
  show lookupState ((A.states ++ [_]) ++ B.states) nid = _
  rw [List.append_assoc, lookupState_append_right hnotA, List.singleton_append,
    lookupState_cons, if_pos rfl]

theorem merge_lookup_right {A B : NFA} {nid : Nat} {q : Nat}
    (hd : ∀ q ∈ idsOf A.states, q ∉ idsOf B.states)
    (hB : ∀ q ∈ idsOf B.states, q < nid)
    (hq : q ∈ idsOf B.states) :
    lookupState (A.merge_other B nid).states q = lookupState B.states q := by
  have hnotA : q ∉ idsOf A.states := fun hm => hd q hm hq
  have hne : nid ≠ q := fun he => lt_irrefl _ (he ▸ hB q hq)
  show lookupState ((A.states ++ [_]) ++ B.states) q = _
  rw [List.append_assoc, lookupState_append_right hnotA, List.singleton_append,
    lookupState_cons, if_neg hne]

theorem merge_other_idsOf (A B : NFA) (nid : Nat) :
    idsOf (A.merge_other B nid).states =
      (idsOf A.states ++ [nid]) ++ idsOf B.states := by
  show idsOf ((A.states ++ [_]) ++ B.states) = _
  rw [idsOf_append, idsOf_append]
  rfl

theorem merge_other_wf {A B : NFA} {nid : Nat}
    (hA : WfNFA A nid) (hB : WfNFA B nid)
    (hd : ∀ q ∈ idsOf A.states, q ∉ idsOf B.states) :
    WfNFA (A.merge_other B nid) (nid + 1) := by
  have hids := merge_other_idsOf A B nid
  refine ⟨?_, ?_, ?_, ?_, ?_⟩
  · show (A.states ++ [_]) ++ B.states ≠ []
    simp [hA.nonempty]
  · rw [hids]
    rw [List.nodup_append, List.nodup_append]
    refine ⟨⟨hA.nodup, List.nodup_singleton _, ?_⟩, hB.nodup, ?_⟩
    · intro q hq hq'
      rw [List.mem_singleton] at hq'
      exact lt_irrefl _ (hq' ▸ hA.bounded q hq)
    · intro q hq hq'
      rcases List.mem_append.1 hq with hq | hq
      · exact hd q hq hq'
      · rw [List.mem_singleton] at hq
        exact lt_irrefl _ (hq ▸ hB.bounded q hq')
  · intro q hq
    rw [hids] at hq
    rcases List.mem_append.1 hq with hq | hq
    · rcases List.mem_append.1 hq with hq | hq
      · exact lt_trans (hA.bounded q hq) (Nat.lt_succ_self _)
      · rw [List.mem_singleton] at hq
        rw [hq]
        exact Nat.lt_succ_self _
    · exact lt_trans (hB.bounded q hq) (Nat.lt_succ_self _)
  · rw [hids]
    show nid ∈ _
    rw [List.append_assoc]
    exact List.mem_append_right _ (List.mem_append_left _ (List.mem_singleton.2 rfl))
  · intro st hst tr htr
    rw [hids]
    have hmem : st ∈ (A.states ++ [_]) ++ B.states := hst
    rcases List.mem_append.1 hmem with hst' | hst'
    · rcases List.mem_append.1 hst' with hst'' | hst''
      · have := hA.closed st hst'' tr htr
        exact List.mem_append_left _ (List.mem_append_left _ this)
      · rw [List.mem_singleton] at hst''
        rw [hst''] at htr
        simp only [List.mem_cons, List.mem_singleton] at htr
        rcases htr with h | h | h
        · rw [h]
          exact List.mem_append_left _ (List.mem_append_left _ hA.init_mem)
        · rw [h]
          exact List.mem_append_right _ hB.init_mem
        · cases h
    · have := hB.closed st hst' tr htr
      exact List.mem_append_right _ this

theorem merge_other_reachAll {A B : NFA} {nid : Nat}
    (hA : WfNFA A nid) (hB : WfNFA B nid)
    (hd : ∀ q ∈ idsOf A.states, q ∉ idsOf B.states)
    (rA : ReachAll A) (rB : ReachAll B) :
    ReachAll (A.merge_other B nid) := by
  have hextA : Extends A.states (A.merge_other B nid).states := by
    intro q st hl
    have hq : q ∈ idsOf A.states :=
      mem_idsOf.2 ⟨st, (lookupState_mem hl).1, (lookupState_mem hl).2⟩
    exact ⟨st, by rw [merge_lookup_left hq]; exact hl, rfl, fun tr htr => htr⟩
  have hextB : Extends B.states (A.merge_other B nid).states := by
    intro q st hl
    have hq : q ∈ idsOf B.states :=
      mem_idsOf.2 ⟨st, (lookupState_mem hl).1, (lookupState_mem hl).2⟩
    exact ⟨st, by rw [merge_lookup_right hd hB.bounded hq]; exact hl, rfl,
      fun tr htr => htr⟩
  have hmid := merge_lookup_mid (B := B) hA.bounded
  have hstepA : Reach (A.merge_other B nid).states nid A.initial :=
    Reach.step nid nid _ Transition.epsilon A.initial (Reach.refl nid) hmid
      (by simp)
  have hstepB : Reach (A.merge_other B nid).states nid B.initial :=
    Reach.step nid nid _ Transition.epsilon B.initial (Reach.refl nid) hmid
      (by simp)
  intro st hst
  have hmem : st ∈ (A.states ++ [_]) ++ B.states := hst
  show Reach _ nid st.id
  rcases List.mem_append.1 hmem with hst' | hst'
  · rcases List.mem_append.1 hst' with hst'' | hst''
    · exact hstepA.trans (reach_of_extends hextA (rA st hst''))
    · rw [List.mem_singleton] at hst''
      rw [hst'']
      exact Reach.refl nid
  · exact hstepB.trans (reach_of_extends hextB (rB st hst'))

theorem merge_other_lang {A B : NFA} {nid : Nat}
    (hA : WfNFA A nid) (hB : WfNFA B nid)
    (hd : ∀ q ∈ idsOf A.states, q ∉ idsOf B.states)
    (v : List Char) :
    Accepts (A.merge_other B nid).states nid v ↔
      Accepts A.states A.initial v ∨ Accepts B.states B.initial v := by
  have hmid := merge_lookup_mid (B := B) hA.bounded
  constructor
  · intro h
    cases h with
    | done _ st hl hacc =>
      rw [hmid] at hl
      cases hl
      cases hacc
    | viaChar _ st c q' w hl hm _ =>
      rw [hmid] at hl
      cases hl
      simp at hm
    | viaEps _ st q' w hl hm hacc =>
      rw [hmid] at hl
      cases hl
      simp only [List.mem_cons, List.mem_singleton, Prod.mk.injEq] at hm
      rcases hm with ⟨_, h1⟩ | ⟨_, h1⟩ | hfalse
      · left
        exact accepts_restrict_down hA.closed (fun q hq => merge_lookup_left hq)
          (h1 ▸ hacc) hA.init_mem
      · right
        exact accepts_restrict_down hB.closed
          (fun q hq => merge_lookup_right hd hB.bounded hq) (h1 ▸ hacc) hB.init_mem
      · cases hfalse
  · intro h
    rcases h with h | h
    · exact Accepts.viaEps nid _ A.initial v hmid (by simp)
        (accepts_restrict_up (fun q hq => merge_lookup_left hq) h)
    · exact Accepts.viaEps nid _ B.initial v hmid (by simp)
        (accepts_restrict_up (fun q hq => merge_lookup_right hd hB.bounded hq) h)

theorem mem_of_getLast? {α : Type} {l : List α} {a : α}
    (h : l.getLast? = some a) : a ∈ l := by
  obtain ⟨hne, heq⟩ := List.mem_getLast?_eq_getLast (l := l) (x := a) h
  rw [heq]
  exact List.getLast_mem hne

theorem extendLit_idsOf (nfa : NFA) (lastId : Nat) (c nc : Char) (nid : Nat) :
    idsOf (extendLit nfa lastId c nc nid).states =
      idsOf nfa.states ++ [nid, nid + 1] := by
  show idsOf (addTransitionTo nfa.states lastId Transition.epsilon nid ++ [_, _]) = _
  rw [idsOf_append, idsOf_addTransitionTo]
  rfl

theorem extendLit_wf {nfa : NFA} {nid : Nat} (hA : WfNFA nfa nid)
    (lastId : Nat) (c nc : Char) :
    WfNFA (extendLit nfa lastId c nc nid) (nid + 2) := by
  have hids := extendLit_idsOf nfa lastId c nc nid
  refine ⟨?_, ?_, ?_, ?_, ?_⟩
  · show addTransitionTo _ _ _ _ ++ [_, _] ≠ []
    simp
  · rw [hids, List.nodup_append]
    refine ⟨hA.nodup, by simp, ?_⟩
    intro q hq hq'
    have hlt := hA.bounded q hq
    simp only [List.mem_cons, List.mem_singleton] at hq'
    rcases hq' with rfl | rfl | hfalse
    · exact lt_irrefl _ hlt
    · exact Nat.lt_irrefl _ (lt_trans hlt (Nat.lt_succ_self _))
    · cases hfalse
  · intro q hq
    rw [hids] at hq
    rcases List.mem_append.1 hq with hq | hq
    · exact lt_trans (hA.bounded q hq) (by omega)
    · simp only [List.mem_cons, List.mem_singleton] at hq
      rcases hq with rfl | rfl | hfalse
      · omega
      · omega
      · cases hfalse
  · show nfa.initial ∈ idsOf (extendLit nfa lastId c nc nid).states
    rw [hids]
    exact List.mem_append_left _ hA.init_mem
  · intro st hst tr htr
    rw [hids]
    have hmem : st ∈ addTransitionTo nfa.states lastId Transition.epsilon nid ++
        [_, _] := hst
    rcases List.mem_append.1 hmem with h1 | h2
    · obtain ⟨st0, hst0, heq⟩ := mem_addTransitionTo.1 h1
      by_cases h0 : st0.id = lastId
      · rw [if_pos h0] at heq
        rw [← heq] at htr
        simp only at htr
        rcases List.mem_append.1 htr with htr' | htr'
        · exact List.mem_append_left _ (hA.closed st0 hst0 tr htr')
        · rw [List.mem_singleton] at htr'
          rw [htr']
          exact List.mem_append_right _ (by simp)
      · rw [if_neg h0] at heq
        rw [← heq] at htr
        exact List.mem_append_left _ (hA.closed st0 hst0 tr htr)
    · simp only [List.mem_cons, List.mem_singleton] at h2
      rcases h2 with rfl | rfl | hfalse
      · simp only [List.mem_singleton] at htr
        rw [htr]
        exact List.mem_append_right _ (by simp)
      · simp at htr
      · cases hfalse

theorem extendLit_extends {nfa : NFA} {nid : Nat}
    (_hb : ∀ q ∈ idsOf nfa.states, q < nid) (lastId : Nat) (c nc : Char) :
    Extends nfa.states (extendLit nfa lastId c nc nid).states := by
  intro q st hl
  by_cases hql : q = lastId
  · subst hql
    refine ⟨{ st with transitions := st.transitions ++ [(Transition.epsilon, nid)] },
      ?_, rfl, fun tr htr => List.mem_append_left _ htr⟩
    have h1 : lookupState (addTransitionTo nfa.states q Transition.epsilon nid) q =
        some { st with transitions := st.transitions ++ [(Transition.epsilon, nid)] } := by
      rw [lookupState_addTransitionTo_eq, hl]
      rfl
    exact lookupState_append_left h1
  · refine ⟨st, ?_, rfl, fun tr htr => htr⟩
    have h1 : lookupState (addTransitionTo nfa.states lastId Transition.epsilon nid) q =
        some st := by
      rw [lookupState_addTransitionTo_ne _ _ hql]
      exact hl
    exact lookupState_append_left h1

theorem extendLit_reachAll {nfa : NFA} {nid : Nat} {last : State}
    (hA : WfNFA nfa nid) (hr : ReachAll nfa)
    (hlast : nfa.states.getLast? = some last) (c nc : Char) :
    ReachAll (extendLit nfa last.id c nc nid) := by
  have hmem := mem_of_getLast? hlast
  have hext := extendLit_extends hA.bounded last.id c nc
  have hlul : lookupState (extendLit nfa last.id c nc nid).states last.id =
      some { last with transitions := last.transitions ++ [(Transition.epsilon, nid)] } := by
    have h0 : lookupState nfa.states last.id = some last :=
      lookupState_of_mem hA.nodup hmem
    have h1 : lookupState (addTransitionTo nfa.states last.id Transition.epsilon nid)
        last.id =
        some { last with transitions := last.transitions ++ [(Transition.epsilon, nid)] } := by
      rw [lookupState_addTransitionTo_eq, h0]
      rfl
    exact lookupState_append_left h1
  have hrn : Reach (extendLit nfa last.id c nc nid).states nfa.initial nid :=
    Reach.step nfa.initial last.id _ Transition.epsilon nid
      (reach_of_extends hext (hr last hmem)) hlul (by simp)
  have hlu1 : lookupState (extendLit nfa last.id c nc nid).states nid =
      some { id := nid, transitions := [(Transition.char c, nid + 1)],
             accepting := false } := by
    have hn : nid ∉ idsOf (addTransitionTo nfa.states last.id Transition.epsilon nid) := by
      rw [idsOf_addTransitionTo]
      exact fun hm => lt_irrefl _ (hA.bounded _ hm)
    show lookupState (addTransitionTo _ _ _ _ ++ [_, _]) nid = _
    rw [lookupState_append_right hn, lookupState_cons, if_pos rfl]
  have hrn1 : Reach (extendLit nfa last.id c nc nid).states nfa.initial (nid + 1) :=
    Reach.step nfa.initial nid _ (Transition.char c) (nid + 1) hrn hlu1 (by simp)
  intro st hst
  have hmem' : st ∈ addTransitionTo nfa.states last.id Transition.epsilon nid ++
      [_, _] := hst
  show Reach _ nfa.initial st.id
  rcases List.mem_append.1 hmem' with h1 | h2
  · obtain ⟨st0, hst0, heq⟩ := mem_addTransitionTo.1 h1
    have hsid : st.id = st0.id := by
      rw [← heq]
      split_ifs <;> rfl
    rw [hsid]
    exact reach_of_extends hext (hr st0 hst0)
  · simp only [List.mem_cons, List.mem_singleton] at h2
    rcases h2 with rfl | rfl | hfalse
    · exact hrn
    · exact hrn1
    · cases hfalse

theorem buildInv_nil : BuildInv [] 0 :=
  ⟨⟨fun n h => absurd h (List.not_mem_nil n), List.Pairwise.nil⟩,
    fun n h => absurd h (List.not_mem_nil n)⟩

theorem wfNFA_new (nid : Nat) : WfNFA (NFA.new nid) (nid + 1) := by
  refine ⟨by simp [NFA.new], by simp [NFA.new, idsOf], ?_, by simp [NFA.new, idsOf], ?_⟩
  · intro q hq
    simp [NFA.new, idsOf] at hq
    omega
  · intro st hst tr htr
    simp only [NFA.new, List.mem_singleton] at hst
    rw [hst] at htr
    simp at htr

theorem buildInv_push {nfas : List NFA} {nid : Nat} (h : BuildInv nfas nid) :
    BuildInv (NFA.new nid :: nfas) (nid + 1) := by
  obtain ⟨⟨hwf, hpw⟩, hra⟩ := h
  refine ⟨⟨?_, ?_⟩, ?_⟩
  · intro n hn
    rcases List.mem_cons.1 hn with rfl | hm
    · exact wfNFA_new nid
    · exact (hwf n hm).mono (Nat.le_succ _)
  · refine List.Pairwise.cons ?_ hpw
    intro b hb q hq
    simp only [NFA.new, idsOf, List.map_cons, List.map_nil, List.mem_singleton] at hq
    rw [hq]
    exact fun hm => lt_irrefl _ ((hwf b hb).bounded _ hm)
  · intro n hn
    rcases List.mem_cons.1 hn with rfl | hm
    · intro st hst
      simp only [NFA.new, List.mem_singleton] at hst
      rw [hst]
      exact Reach.refl nid
    · exact hra n hm

theorem buildInv_literal {nfa : NFA} {rest : List NFA} {nid : Nat} {last : State}
    (h : BuildInv (nfa :: rest) nid) (hlast : nfa.states.getLast? = some last)
    (c nc : Char) :
    BuildInv (extendLit nfa last.id c nc nid :: rest) (nid + 2) := by
  obtain ⟨⟨hwf, hpw⟩, hra⟩ := h
  have hwfa := hwf nfa (List.mem_cons_self _ _)
  rw [List.pairwise_cons] at hpw
  refine ⟨⟨?_, ?_⟩, ?_⟩
  · intro n hn
    rcases List.mem_cons.1 hn with rfl | hm
    · exact extendLit_wf hwfa last.id c nc
    · exact (hwf n (List.mem_cons_of_mem _ hm)).mono (by omega)
  · refine List.Pairwise.cons ?_ hpw.2
    intro b hb q hq
    rw [extendLit_idsOf] at hq
    rcases List.mem_append.1 hq with hq | hq
    · exact hpw.1 b hb q hq
    · simp only [List.mem_cons, List.mem_singleton] at hq
      have hbb := (hwf b (List.mem_cons_of_mem _ hb)).bounded
      rcases hq with rfl | rfl | hfalse
      · exact fun hm => lt_irrefl _ (hbb _ hm)
      · exact fun hm => absurd (hbb _ hm) (by omega)
      · cases hfalse
  · intro n hn
    rcases List.mem_cons.1 hn with rfl | hm
    · exact extendLit_reachAll hwfa (hra nfa (List.mem_cons_self _ _)) hlast c nc
    · exact hra n (List.mem_cons_of_mem _ hm)

theorem reduceToParen_inv {sy : List Symbol} {nfas : List NFA} {nid : Nat}
    {sy' : List Symbol} {nfas' : List NFA} {nid' : Nat}
    (h : BuildInv nfas nid)
    (hr : reduceToParen sy nfas nid = Except.ok (sy', nfas', nid')) :
    BuildInv nfas' nid' := by
  induction sy generalizing nfas nid with
  | nil => cases hr
  | cons s sy ih =>
    cases s with
    | leftParen =>
      simp only [reduceToParen] at hr
      cases hr
      exact h
    | or =>
      match nfas, hr with
      | n1 :: n2 :: rest, hr =>
      simp only [reduceToParen] at hr
      refine ih ?_ hr
      obtain ⟨⟨hwf, hpw⟩, hra⟩ := h
      rw [List.pairwise_cons] at hpw
      rw [List.pairwise_cons] at hpw
      obtain ⟨hd1, hd2, hpw2⟩ := hpw
      have hwf1 := hwf n1 (List.mem_cons_self _ _)
      have hwf2 := hwf n2 (List.mem_cons_of_mem _ (List.mem_cons_self _ _))
      have hd12 := hd1 n2 (List.mem_cons_self _ _)
      refine ⟨⟨?_, ?_⟩, ?_⟩
      · intro n hn
        rcases List.mem_cons.1 hn with rfl | hm
        · exact merge_other_wf hwf1 hwf2 hd12
        · exact (hwf n (List.mem_cons_of_mem _ (List.mem_cons_of_mem _ hm))).mono
            (Nat.le_succ _)
      · refine List.Pairwise.cons ?_ hpw2
        intro b hb q hq
        rw [merge_other_idsOf] at hq
        have hbb := (hwf b (List.mem_cons_of_mem _ (List.mem_cons_of_mem _ hb))).bounded
        rcases List.mem_append.1 hq with hq | hq
        · rcases List.mem_append.1 hq with hq | hq
          · exact hd1 b (List.mem_cons_of_mem _ hb) q hq
          · rw [List.mem_singleton] at hq
            rw [hq]
            exact fun hm => lt_irrefl _ (hbb _ hm)
        · exact hd2 b hb q hq
      · intro n hn
        rcases List.mem_cons.1 hn with rfl | hm
        · exact merge_other_reachAll hwf1 hwf2 hd12
            (hra n1 (List.mem_cons_self _ _))
            (hra n2 (List.mem_cons_of_mem _ (List.mem_cons_self _ _)))
        · exact hra n (List.mem_cons_of_mem _ (List.mem_cons_of_mem _ hm))

theorem scan_inv (cs : List Char) :
    ∀ (sy : List Symbol) (nfas : List NFA) (nid : Nat)
      (sy' : List Symbol) (nfas' : List NFA) (nid' : Nat),
      BuildInv nfas nid → scan cs (sy, nfas, nid) = Except.ok (sy', nfas', nid') →
      BuildInv nfas' nid' := by
  induction cs with
  | nil =>
    intro sy nfas nid sy' nfas' nid' h hs
    rw [scan_nil] at hs
    cases hs
    exact h
  | cons c cs ih =>
    intro sy nfas nid sy' nfas' nid' h hs
    by_cases h1 : c = '('
    · subst h1
      rw [scan_lparen] at hs
      exact ih _ _ _ _ _ _ (buildInv_push h) hs
    by_cases h2 : c = ')'
    · subst h2
      rw [scan_rparen] at hs
      cases hr : reduceToParen sy nfas nid with
      | ok st3 =>
        rw [hr] at hs
        obtain ⟨sy3, nfas3, nid3⟩ := st3
        exact ih _ _ _ _ _ _ (reduceToParen_inv h hr) hs
      | error e =>
        rw [hr] at hs
        cases hs
    by_cases h3 : c = '|'
    · subst h3
      rw [scan_pipe] at hs
      exact ih _ _ _ _ _ _ (buildInv_push h) hs
    · rw [scan_other c cs sy nfas nid h1 h2 h3] at hs
      cases hl : literalStep c cs.head? nfas nid with
      | ok p =>
        rw [hl] at hs
        obtain ⟨nfas3, nid3⟩ := p
        match nfas, hl, h with
        | nfa :: rest, hl, h =>
        cases hg : nfa.states.getLast? with
        | none => simp [literalStep, hg] at hl
        | some last =>
          cases hh : cs.head? with
          | none => simp [literalStep, hg, hh] at hl
          | some nc =>
            simp only [literalStep, hg, hh] at hl
            cases hl
            exact ih _ _ _ _ _ _ (buildInv_literal h hg c nc) hs
      | error e =>
        rw [hl] at hs
        cases hs

theorem getLast?_ne_none {α : Type} {l : List α} (h : l ≠ []) :
    ∃ a, l.getLast? = some a :=
  ⟨l.getLast h, List.getLast?_eq_getLast _ h⟩

theorem append_pair_assoc {α : Type} (l : List α) (a b : α) :
    l ++ [a, b] = (l ++ [a]) ++ [b] := by simp

theorem mem_id_unique {S : List State} (hnd : (idsOf S).Nodup) {a b : State}
    (ha : a ∈ S) (hb : b ∈ S) (hid : a.id = b.id) : a = b := by
  have h1 := lookupState_of_mem hnd ha
  have h2 := lookupState_of_mem hnd hb
  rw [hid] at h1
  rw [h1] at h2
  exact Option.some_injective _ h2

theorem accNoTrans_new (nid : Nat) : AccNoTrans (NFA.new nid) := by
  intro st hst h
  simp only [NFA.new, List.mem_singleton] at hst
  rw [hst]

theorem merge_other_accNoTrans {A B : NFA} {nid : Nat}
    (hA : AccNoTrans A) (hB : AccNoTrans B) : AccNoTrans (A.merge_other B nid) := by
  intro st hst h
  have hmem : st ∈ (A.states ++ [_]) ++ B.states := hst
  rcases List.mem_append.1 hmem with h1 | h2
  · rcases List.mem_append.1 h1 with h3 | h4
    · exact hA st h3 h
    · rw [List.mem_singleton] at h4
      rw [h4] at h
      simp at h
  · exact hB st h2 h

theorem mergeFold_accNoTrans (Ns : List NFA) :
    ∀ (N : NFA) (nid : Nat), AccNoTrans N → (∀ n ∈ Ns, AccNoTrans n) →
      AccNoTrans (mergeFold N Ns nid).1 := by
  induction Ns with
  | nil => intro N nid hN _; exact hN
  | cons N2 Ns ih =>
    intro N nid hN hNs
    exact ih _ _ (merge_other_accNoTrans hN (hNs N2 (List.mem_cons_self _ _)))
      (fun n hn => hNs n (List.mem_cons_of_mem _ hn))

theorem mergeFold_snd (Ns : List NFA) :
    ∀ (N : NFA) (nid : Nat), (mergeFold N Ns nid).2 = nid + Ns.length := by
  induction Ns with
  | nil => intro N nid; rfl
  | cons N2 Ns ih =>
    intro N nid
    show (mergeFold (N.merge_other N2 nid) Ns (nid + 1)).2 = _
    rw [ih]
    simp
    omega

theorem reduceToParen_orRep (j : Nat) :
    ∀ (N : NFA) (Ns rest : List NFA) (sy : List Symbol) (nid : Nat),
      Ns.length = j →
      reduceToParen (orRep j ++ Symbol.leftParen :: sy) (N :: (Ns ++ rest)) nid =
        Except.ok (sy, (mergeFold N Ns nid).1 :: rest, (mergeFold N Ns nid).2) := by
  induction j with
  | zero =>
    intro N Ns rest sy nid hlen
    rw [List.length_eq_zero] at hlen
    subst hlen
    rfl
  | succ j ih =>
    intro N Ns rest sy nid hlen
    cases Ns with
    | nil => cases hlen
    | cons N2 Ns' =>
      exact ih (N.merge_other N2 nid) Ns' rest sy (nid + 1) (by simpa using hlen)

theorem extendLit_accNoTrans {nfa : NFA} {nid : Nat} {last : State}
    (hnd : (idsOf nfa.states).Nodup) (hmem : last ∈ nfa.states)
    (hacc : last.accepting = false) (han : AccNoTrans nfa) (c nc : Char) :
    AccNoTrans (extendLit nfa last.id c nc nid) := by
  intro st hst h
  have hmem' : st ∈ addTransitionTo nfa.states last.id Transition.epsilon nid ++
      [_, _] := hst
  rcases List.mem_append.1 hmem' with h1 | h2
  · obtain ⟨st0, hst0, heq⟩ := mem_addTransitionTo.1 h1
    by_cases h0 : st0.id = last.id
    · have he : st0 = last := mem_id_unique hnd hst0 hmem h0
      rw [if_pos h0] at heq
      rw [← heq] at h
      have h' : st0.accepting = true := h
      rw [he, hacc] at h'
      cases h'
    · rw [if_neg h0] at heq
      rw [← heq] at h ⊢
      exact han st0 hst0 h
  · simp only [List.mem_cons, List.mem_singleton] at h2
    rcases h2 with rfl | rfl | hf
    · simp at h
    · rfl
    · cases hf

theorem extendLit_getLast (nfa : NFA) (lastId : Nat) (c nc : Char) (nid : Nat) :
    (extendLit nfa lastId c nc nid).states.getLast? =
      some { id := nid + 1, transitions := [],
             accepting := nc == '|' || nc == ')' } := by
  show (addTransitionTo nfa.states lastId Transition.epsilon nid ++
      [({ id := nid, transitions := [(Transition.char c, nid + 1)],
          accepting := false } : State),
       ({ id := nid + 1, transitions := [],
          accepting := nc == '|' || nc == ')' } : State)]).getLast? = _
  rw [append_pair_assoc]
  exact getLast?_append_singleton _ _

theorem scan_pf (cs : List Char) :
    ∀ (j : Nat) (sy0 : List Symbol) (nfas : List NFA) (nid : Nat) (tail : List Char),
      (∀ c ∈ cs, c ≠ '(' ∧ c ≠ ')') →
      nfas.length = j + 1 →
      BuildInv nfas nid →
      (∀ n ∈ nfas, AccNoTrans n) →
      (∀ nfa last, nfas.head? = some nfa → nfa.states.getLast? = some last →
        last.accepting = true → cs.head? = some '|' ∨ cs = []) →
      ∃ M nid',
        scan (cs ++ ')' :: tail) (orRep j ++ Symbol.leftParen :: sy0, nfas, nid) =
          scan tail (sy0, [M], nid') ∧ AccNoTrans M := by
  induction cs with
  | nil =>
    intro j sy0 nfas nid tail hfree hlen hinv han htop
    cases nfas with
    | nil => cases hlen
    | cons N Ns =>
      have hNs : Ns.length = j := by simpa using hlen
      refine ⟨(mergeFold N Ns nid).1, (mergeFold N Ns nid).2, ?_, ?_⟩
      · show scan (')' :: tail) (orRep j ++ Symbol.leftParen :: sy0, N :: Ns, nid) = _
        rw [scan_rparen]
        have hred := reduceToParen_orRep j N Ns [] sy0 nid hNs
        rw [List.append_nil] at hred
        rw [hred]
      · exact mergeFold_accNoTrans Ns N nid (han N (List.mem_cons_self _ _))
          (fun n hn => han n (List.mem_cons_of_mem _ hn))
  | cons c cs ih =>
    intro j sy0 nfas nid tail hfree hlen hinv han htop
    have hc := hfree c (List.mem_cons_self _ _)
    have hfree' : ∀ a ∈ cs, a ≠ '(' ∧ a ≠ ')' :=
      fun a ha => hfree a (List.mem_cons_of_mem _ ha)
    by_cases hpipe : c = '|'
    · subst hpipe
      rw [List.cons_append, scan_pipe]
      have horrep : Symbol.or :: (orRep j ++ Symbol.leftParen :: sy0) =
          orRep (j + 1) ++ Symbol.leftParen :: sy0 := rfl
      rw [horrep]
      refine ih (j + 1) sy0 (NFA.new nid :: nfas) (nid + 1) tail hfree'
        (by simp [hlen]) (buildInv_push hinv) ?_ ?_
      · intro n hn
        rcases List.mem_cons.1 hn with rfl | hm
        · exact accNoTrans_new nid
        · exact han n hm
      · intro nfa last hh hgl hacc
        rw [List.head?_cons] at hh
        cases hh
        simp only [NFA.new] at hgl
        have : last = { id := nid, transitions := [], accepting := false } := by
          cases hgl
          rfl
        rw [this] at hacc
        cases hacc
    · cases nfas with
      | nil => cases hlen
      | cons nfa rest =>
        have hwfa : WfNFA nfa nid := hinv.1.1 nfa (List.mem_cons_self _ _)
        obtain ⟨last, hlast⟩ := getLast?_ne_none hwfa.nonempty
        have hlastacc : last.accepting = false := by
          by_cases hla : last.accepting = true
          · rcases htop nfa last rfl hlast hla with hh | hh
            · rw [List.head?_cons] at hh
              cases hh
              exact absurd rfl hpipe
            · cases hh
          · revert hla
            cases last.accepting
            · intro _; rfl
            · intro hla; exact absurd rfl hla
        obtain ⟨nc, cs2, hsplit⟩ : ∃ nc cs2, cs ++ ')' :: tail = nc :: cs2 := by
          cases cs with
          | nil => exact ⟨')', tail, rfl⟩
          | cons d ds => exact ⟨d, ds ++ ')' :: tail, rfl⟩
        rw [List.cons_append, hsplit,
          scan_literal c nc cs2 (orRep j ++ Symbol.leftParen :: sy0) nfa rest nid last
            hc.1 hc.2 hpipe hlast,
          ← hsplit]
        refine ih j sy0 (extendLit nfa last.id c nc nid :: rest) (nid + 2) tail hfree'
          (by simpa using hlen) (buildInv_literal hinv hlast c nc) ?_ ?_
        · intro n hn
          rcases List.mem_cons.1 hn with rfl | hm
          · exact extendLit_accNoTrans hwfa.nodup (mem_of_getLast? hlast) hlastacc
              (han nfa (List.mem_cons_self _ _)) c nc
          · exact han n (List.mem_cons_of_mem _ hm)
        · intro nfa' last' hh hgl hacc
          rw [List.head?_cons] at hh
          cases hh
          rw [extendLit_getLast] at hgl
          cases hgl
          have hnc : nc = '|' ∨ nc = ')' := by
            have : (nc == '|' || nc == ')') = true := hacc
            simpa using this
          cases cs with
          | nil => right; rfl
          | cons d ds =>
            left
            have hd : nc = d := by
              rw [List.cons_append] at hsplit
              cases hsplit
              rfl
            rcases hnc with hnc | hnc
            · rw [List.head?_cons, ← hd, hnc]
            · exact absurd (hd ▸ hnc) (hfree' d (List.mem_cons_self _ _)).2

theorem build_pf (k : String) (p : List Char)
    (hfree : ∀ c ∈ p, c ≠ '(' ∧ c ≠ ')') :
    ∃ n nid',
      scan (('(' :: p) ++ [')']) ([], [], 0) = Except.ok ([], [n], nid') ∧
      NFA.new_from_token { kind := k, value := String.mk p } = Except.ok n ∧
      AccNoTrans n := by
  obtain ⟨M, nid', heq, hM⟩ := scan_pf p 0 [] [NFA.new 0] 1 [] hfree rfl
    (buildInv_push buildInv_nil)
    (fun n hn => by
      rw [List.mem_singleton] at hn
      rw [hn]
      exact accNoTrans_new 0)
    (fun nfa last hh hgl hacc => by
      rw [List.head?_cons] at hh
      cases hh
      simp only [NFA.new] at hgl
      have : last = { id := 0, transitions := [], accepting := false } := by
        cases hgl
        rfl
      rw [this] at hacc
      cases hacc)
  have hscan : scan (('(' :: p) ++ [')']) ([], [], 0) = Except.ok ([], [M], nid') := by
    rw [List.cons_append, scan_lparen]
    show scan (p ++ ')' :: []) (orRep 0 ++ Symbol.leftParen :: [], [NFA.new 0], 1) = _
    rw [heq, scan_nil]
  refine ⟨M, nid', hscan, ?_, hM⟩
  unfold NFA.new_from_token
  rw [show (String.mk p).data = p from rfl, hscan]

theorem chainFrom_facts (w : List Char) : ∀ m : Nat,
    (∀ q ∈ idsOf (chainFrom w m), m ≤ q ∧ q < m + 2 * w.length) ∧
    (idsOf (chainFrom w m)).Nodup ∧
    (w ≠ [] → m ∈ idsOf (chainFrom w m)) ∧
    SelfContained (chainFrom w m) := by
  induction w with
  | nil =>
    intro m
    refine ⟨?_, ?_, ?_, ?_⟩ <;> simp [chainFrom, idsOf, SelfContained]
  | cons c cs ih =>
    intro m
    obtain ⟨ihb, ihnd, ihm, ihsc⟩ := ih (m + 2)
    have hids : idsOf (chainFrom (c :: cs) m) =
        m :: (m + 1) :: idsOf (chainFrom cs (m + 2)) := by
      simp [chainFrom, idsOf]
    refine ⟨?_, ?_, ?_, ?_⟩
    · intro q hq
      rw [hids] at hq
      simp only [List.length_cons]
      rcases List.mem_cons.1 hq with rfl | hq
      · omega
      rcases List.mem_cons.1 hq with rfl | hq
      · omega
      · have := ihb q hq
        omega
    · rw [hids]
      rw [List.nodup_cons, List.nodup_cons]
      refine ⟨?_, ?_, ihnd⟩
      · intro hm
        rcases List.mem_cons.1 hm with hm | hm
        · omega
        · have := (ihb m hm).1
          omega
      · intro hm
        have := (ihb (m + 1) hm).1
        omega
    · intro _
      rw [hids]
      exact List.mem_cons_self _ _
    · intro st hst tr htr
      rw [hids]
      rcases List.mem_cons.1 hst with rfl | hst
      · simp only [List.mem_singleton] at htr
        rw [htr]
        exact List.mem_cons_of_mem _ (List.mem_cons_self _ _)
      rcases List.mem_cons.1 hst with rfl | hst
      · by_cases hcs : cs = []
        · rw [if_pos hcs] at htr
          cases htr
        · rw [if_neg hcs] at htr
          simp only [List.mem_singleton] at htr
          rw [htr]
          exact List.mem_cons_of_mem _ (List.mem_cons_of_mem _ (ihm hcs))
      · have := ihsc st hst tr htr
        exact List.mem_cons_of_mem _ (List.mem_cons_of_mem _ this)

theorem fullChain_idsOf (w : List Char) (i : Nat) :
    idsOf (fullChain w i).states = i :: idsOf (chainFrom w (i + 1)) := by
  simp [fullChain, idsOf]

theorem fullChain_wf (w : List Char) (i : Nat) :
    WfNFA (fullChain w i) (i + 2 * w.length + 1) := by
  obtain ⟨hb, hnd, hm, hsc⟩ := chainFrom_facts w (i + 1)
  refine ⟨by simp [fullChain], ?_, ?_, ?_, ?_⟩
  · rw [fullChain_idsOf, List.nodup_cons]
    refine ⟨?_, hnd⟩
    intro hmem
    have := (hb i hmem).1
    omega
  · intro q hq
    rw [fullChain_idsOf] at hq
    rcases List.mem_cons.1 hq with rfl | hq
    · omega
    · have := (hb q hq).2
      omega
  · rw [fullChain_idsOf]
    exact List.mem_cons_self _ _
  · intro st hst tr htr
    rw [fullChain_idsOf]
    rcases List.mem_cons.1 hst with rfl | hst
    · by_cases hw : w = []
      · rw [if_pos hw] at htr
        cases htr
      · rw [if_neg hw] at htr
        simp only [List.mem_singleton] at htr
        rw [htr]
        exact List.mem_cons_of_mem _ (hm hw)
    · exact List.mem_cons_of_mem _ (hsc st hst tr htr)

theorem fullChain_lowBound (w : List Char) (i : Nat) :
    ∀ q ∈ idsOf (fullChain w i).states, i ≤ q := by
  intro q hq
  rw [fullChain_idsOf] at hq
  rcases List.mem_cons.1 hq with rfl | hq
  · exact le_refl _
  · have := ((chainFrom_facts w (i + 1)).1 q hq).1
    omega

theorem chainFrom_lang (w : List Char) : ∀ (m : Nat) (v : List Char), w ≠ [] →
    (Accepts (chainFrom w m) m v ↔ v = w) := by
  induction w with
  | nil => intro m v h; exact absurd rfl h
  | cons c cs ih =>
    intro m v _
    have hlm : lookupState (chainFrom (c :: cs) m) m =
        some { id := m, transitions := [(Transition.char c, m + 1)],
               accepting := false } := by
      show lookupState (_ :: _) m = _
      exact lookupState_cons_self
    have hlm1 : lookupState (chainFrom (c :: cs) m) (m + 1) =
        some { id := m + 1,
               transitions := if cs = [] then [] else [(Transition.epsilon, m + 2)],
               accepting := decide (cs = []) } := by
      show lookupState (_ :: _ :: _) (m + 1) = _
      rw [lookupState_cons_ne (by intro he; simp at he)]
      exact lookupState_cons_self
    have hagree : ∀ q ∈ idsOf (chainFrom cs (m + 2)),
        lookupState (chainFrom (c :: cs) m) q = lookupState (chainFrom cs (m + 2)) q := by
      intro q hq
      have hge := ((chainFrom_facts cs (m + 2)).1 q hq).1
      show lookupState (_ :: _ :: _) q = _
      rw [lookupState_cons_ne (by intro he; simp at he; omega),
        lookupState_cons_ne (by intro he; simp at he; omega)]
    constructor
    · intro h
      cases h with
      | done q st hl hacc =>
        rw [hlm] at hl
        cases hl
        simp at hacc
      | viaEps q st q' v' hl hm h' =>
        rw [hlm] at hl
        cases hl
        simp at hm
      | viaChar q st c' q' v' hl hm h' =>
        rw [hlm] at hl
        cases hl
        simp only [List.mem_singleton, Prod.mk.injEq, Transition.char.injEq] at hm
        obtain ⟨rfl, rfl⟩ := hm
        cases h' with
        | done q2 st2 hl2 hacc2 =>
          rw [hlm1] at hl2
          cases hl2
          have hcs : cs = [] := by simpa using hacc2
          subst hcs
          rfl
        | viaChar q2 st2 c2 q3 v2 hl2 hm2 h2 =>
          rw [hlm1] at hl2
          cases hl2
          by_cases hcs : cs = []
          · rw [if_pos hcs] at hm2
            cases hm2
          · rw [if_neg hcs] at hm2
            simp at hm2
        | viaEps q2 st2 q3 v2 hl2 hm2 h2 =>
          rw [hlm1] at hl2
          cases hl2
          by_cases hcs : cs = []
          · rw [if_pos hcs] at hm2
            cases hm2
          · rw [if_neg hcs] at hm2
            simp only [List.mem_singleton, Prod.mk.injEq] at hm2
            obtain ⟨-, rfl⟩ := hm2
            have hrest : Accepts (chainFrom cs (m + 2)) (m + 2) v' :=
              accepts_restrict_down (chainFrom_facts cs (m + 2)).2.2.2 hagree h2
                ((chainFrom_facts cs (m + 2)).2.2.1 hcs)
            have hv' := (ih (m + 2) v' hcs).1 hrest
            rw [hv']
    · intro hv
      subst hv
      refine Accepts.viaChar m _ c (m + 1) cs hlm (by simp) ?_
      by_cases hcs : cs = []
      · subst hcs
        exact Accepts.done (m + 1) _ hlm1 (by simp)
      · refine Accepts.viaEps (m + 1) _ (m + 2) cs hlm1 ?_ ?_
        · rw [if_neg hcs]
          simp
        · exact accepts_restrict_up hagree ((ih (m + 2) cs hcs).2 rfl)

theorem fullChain_lang (w : List Char) (i : Nat) (hw : w ≠ []) (v : List Char) :
    Accepts (fullChain w i).states i v ↔ v = w := by
  have hinit : lookupState (fullChain w i).states i =
      some { id := i,
             transitions := if w = [] then [] else [(Transition.epsilon, i + 1)],
             accepting := false } := by
    show lookupState (_ :: _) i = _
    exact lookupState_cons_self
  have hagree : ∀ q ∈ idsOf (chainFrom w (i + 1)),
      lookupState (fullChain w i).states q = lookupState (chainFrom w (i + 1)) q := by
    intro q hq
    have hge := ((chainFrom_facts w (i + 1)).1 q hq).1
    show lookupState (_ :: _) q = _
    rw [lookupState_cons_ne (by intro he; simp at he; omega)]
  constructor
  · intro h
    cases h with
    | done q st hl hacc =>
      rw [hinit] at hl
      cases hl
      simp at hacc
    | viaChar q st c' q' v' hl hm h' =>
      rw [hinit] at hl
      cases hl
      rw [if_neg hw] at hm
      simp at hm
    | viaEps q st q' v' hl hm h' =>
      rw [hinit] at hl
      cases hl
      rw [if_neg hw] at hm
      simp only [List.mem_singleton, Prod.mk.injEq] at hm
      obtain ⟨-, rfl⟩ := hm
      have hrest : Accepts (chainFrom w (i + 1)) (i + 1) v :=
        accepts_restrict_down (chainFrom_facts w (i + 1)).2.2.2 hagree h'
          ((chainFrom_facts w (i + 1)).2.2.1 hw)
      exact (chainFrom_lang w (i + 1) v hw).1 hrest
  · intro hv
    refine Accepts.viaEps i _ (i + 1) v hinit ?_ ?_
    · rw [if_neg hw]
      simp
    · exact accepts_restrict_up hagree ((chainFrom_lang w (i + 1) v hw).2 hv)

theorem mergeFold_lang (Ns : List NFA) :
    ∀ (N : NFA) (nid : Nat),
      WfNFA N nid → (∀ n ∈ Ns, WfNFA n nid) →
      List.Pairwise (fun a b => ∀ q, q ∈ idsOf a.states → q ∉ idsOf b.states)
        (N :: Ns) →
      WfNFA (mergeFold N Ns nid).1 (mergeFold N Ns nid).2 ∧
      ∀ v, Accepts (mergeFold N Ns nid).1.states (mergeFold N Ns nid).1.initial v ↔
        (Accepts N.states N.initial v ∨
          ∃ n ∈ Ns, Accepts n.states n.initial v) := by
  induction Ns with
  | nil =>
    intro N nid hN _ _
    refine ⟨hN, ?_⟩
    intro v
    show Accepts N.states N.initial v ↔ _
    simp
  | cons N2 Ns ih =>
    intro N nid hN hNs hpw
    rw [List.pairwise_cons] at hpw
    obtain ⟨hd1, hpw2⟩ := hpw
    rw [List.pairwise_cons] at hpw2
    obtain ⟨hd2, hpw3⟩ := hpw2
    have hwf2 := hNs N2 (List.mem_cons_self _ _)
    have hd12 := hd1 N2 (List.mem_cons_self _ _)
    have hmwf := merge_other_wf hN hwf2 hd12
    have hml : ∀ v,
        Accepts (N.merge_other N2 nid).states (N.merge_other N2 nid).initial v ↔
          (Accepts N.states N.initial v ∨ Accepts N2.states N2.initial v) :=
      fun v => merge_other_lang hN hwf2 hd12 v
    have hpw' : List.Pairwise
        (fun a b => ∀ q, q ∈ idsOf a.states → q ∉ idsOf b.states)
        (N.merge_other N2 nid :: Ns) := by
      rw [List.pairwise_cons]
      refine ⟨?_, hpw3⟩
      intro b hb q hq
      rw [merge_other_idsOf] at hq
      have hbb := (hNs b (List.mem_cons_of_mem _ hb)).bounded
      rcases List.mem_append.1 hq with hq | hq
      · rcases List.mem_append.1 hq with hq | hq
        · exact hd1 b (List.mem_cons_of_mem _ hb) q hq
        · rw [List.mem_singleton] at hq
          rw [hq]
          exact fun hm => lt_irrefl _ (hbb _ hm)
      · exact hd2 b hb q hq
    have hstep := ih (N.merge_other N2 nid) (nid + 1) hmwf
      (fun n hn => (hNs n (List.mem_cons_of_mem _ hn)).mono (Nat.le_succ _)) hpw'
    refine ⟨hstep.1, ?_⟩
    intro v
    show Accepts (mergeFold (N.merge_other N2 nid) Ns (nid + 1)).1.states
        (mergeFold (N.merge_other N2 nid) Ns (nid + 1)).1.initial v ↔ _
    rw [hstep.2 v, hml v]
    have hsplit : (∃ n ∈ N2 :: Ns, Accepts n.states n.initial v) ↔
        (Accepts N2.states N2.initial v ∨
          ∃ n ∈ Ns, Accepts n.states n.initial v) := by
      constructor
      · rintro ⟨n, hn, ha⟩
        rcases List.mem_cons.1 hn with rfl | hn
        · exact Or.inl ha
        · exact Or.inr ⟨n, hn, ha⟩
      · rintro (ha | ⟨n, hn, ha⟩)
        · exact ⟨N2, List.mem_cons_self _ _, ha⟩
        · exact ⟨n, List.mem_cons_of_mem _ hn, ha⟩
    rw [hsplit]
    tauto

theorem addTransitionTo_append (S T : List State) (q : Nat) (t : Transition)
    (tgt : Nat) :
    addTransitionTo (S ++ T) q t tgt =
      addTransitionTo S q t tgt ++ addTransitionTo T q t tgt :=
  List.map_append _ _ _

theorem addTransitionTo_not_mem {S : List State} {q : Nat} (h : q ∉ idsOf S)
    (t : Transition) (tgt : Nat) : addTransitionTo S q t tgt = S := by
  induction S with
  | nil => rfl
  | cons a S ih =>
    rw [addTransitionTo_cons]
    have ha : a.id ≠ q := fun he => h (he ▸ List.mem_cons_self a.id (idsOf S))
    rw [if_neg ha, ih (fun hq => h (List.mem_cons_of_mem _ hq))]

theorem extendLit_eq (A : List State) (e init nid : Nat) (he : e ∉ idsOf A)
    (c nc : Char) :
    extendLit
        { states := A ++ [{ id := e, transitions := [], accepting := false }],
          initial := init }
        ({ id := e, transitions := [], accepting := false } : State).id c nc nid =
      { states :=
          ((A ++ [{ id := e, transitions := [(Transition.epsilon, nid)],
                    accepting := false }]) ++
            [{ id := nid, transitions := [(Transition.char c, nid + 1)],
               accepting := false }]) ++
            [{ id := nid + 1, transitions := [],
               accepting := nc == '|' || nc == ')' }],
        initial := init } := by
  show ({ states :=
            (addTransitionTo
                (A ++ [{ id := e, transitions := [], accepting := false }]) e
                Transition.epsilon nid) ++
              [{ id := nid, transitions := [(Transition.char c, nid + 1)],
                 accepting := false },
               { id := nid + 1, transitions := [],
                 accepting := nc == '|' || nc == ')' }],
          initial := init } : NFA) = _
  rw [addTransitionTo_append, addTransitionTo_not_mem he]
  have hB : addTransitionTo
      [({ id := e, transitions := [], accepting := false } : State)]
      e Transition.epsilon nid =
      [{ id := e, transitions := [(Transition.epsilon, nid)], accepting := false }] := by
    simp [addTransitionTo]
  rw [hB, append_pair_assoc]

theorem scan_word (w : List Char) {la : Char} (hla : la = '|' ∨ la = ')')
    (tail : List Char) (sy : List Symbol) (rest : List NFA) (init : Nat) :
    ∀ (A : List State) (e nid : Nat),
      (∀ c ∈ w, c ≠ '(' ∧ c ≠ ')' ∧ c ≠ '|') → w ≠ [] →
      (∀ q ∈ idsOf A, q < nid) → e < nid → e ∉ idsOf A →
      scan (w ++ la :: tail)
        (sy, { states := A ++ [{ id := e, transitions := [], accepting := false }],
               initial := init } :: rest, nid) =
      scan (la :: tail)
        (sy, { states :=
                 (A ++ [{ id := e, transitions := [(Transition.epsilon, nid)],
                          accepting := false }]) ++ chainFrom w nid,
               initial := init } :: rest, nid + 2 * w.length) := by
  induction w with
  | nil =>
    intro A e nid _ hne _ _ _
    exact absurd rfl hne
  | cons c w' ih =>
    intro A e nid hlit hne hb hbe he
    have hc := hlit c (List.mem_cons_self _ _)
    have hgl : ({ states :=
                    A ++ [({ id := e, transitions := [], accepting := false } : State)],
                  initial := init } : NFA).states.getLast? =
        some { id := e, transitions := [], accepting := false } :=
      getLast?_append_singleton _ _
    cases w' with
    | nil =>
      rw [List.singleton_append,
        scan_literal c la tail sy _ rest nid _ hc.1 hc.2.1 hc.2.2 hgl,
        extendLit_eq A e init nid he c la]
      have hbool : (la == '|' || la == ')') = true := by
        rcases hla with rfl | rfl <;> rfl
      rw [hbool]
      have hnfa : ({ states :=
                       ((A ++ [{ id := e, transitions := [(Transition.epsilon, nid)],
                                 accepting := false }]) ++
                         [{ id := nid, transitions := [(Transition.char c, nid + 1)],
                            accepting := false }]) ++
                         [{ id := nid + 1, transitions := [], accepting := true }],
                     initial := init } : NFA) =
          { states :=
              (A ++ [{ id := e, transitions := [(Transition.epsilon, nid)],
                       accepting := false }]) ++ chainFrom [c] nid,
            initial := init } := by
        congr 1
        simp [chainFrom, List.append_assoc]
      rw [hnfa]
      have harith : nid + 2 = nid + 2 * ([c] : List Char).length := by simp
      rw [harith]
    | cons d w'' =>
      have hd := hlit d (List.mem_cons_of_mem _ (List.mem_cons_self _ _))
      rw [List.cons_append, List.cons_append,
        scan_literal c d (w'' ++ la :: tail) sy _ rest nid _ hc.1 hc.2.1 hc.2.2 hgl,
        extendLit_eq A e init nid he c d]
      have hdb : (d == '|' || d == ')') = false := by
        have h1 : (d == '|') = false := beq_eq_false_iff_ne.2 hd.2.2
        have h2 : (d == ')') = false := beq_eq_false_iff_ne.2 hd.2.1
        rw [h1, h2]
        rfl
      rw [hdb]
      have hb' : ∀ q ∈ idsOf
          ((A ++ [({ id := e, transitions := [(Transition.epsilon, nid)],
                     accepting := false } : State)]) ++
            [({ id := nid, transitions := [(Transition.char c, nid + 1)],
                accepting := false } : State)]), q < nid + 2 := by
        intro q hq
        rw [idsOf_append, idsOf_append] at hq
        rcases List.mem_append.1 hq with hq | hq
        · rcases List.mem_append.1 hq with hq | hq
          · have := hb q hq
            omega
          · simp [idsOf] at hq
            omega
        · simp [idsOf] at hq
          omega
      have he' : (nid + 1) ∉ idsOf
          ((A ++ [({ id := e, transitions := [(Transition.epsilon, nid)],
                     accepting := false } : State)]) ++
            [({ id := nid, transitions := [(Transition.char c, nid + 1)],
                accepting := false } : State)]) := by
        intro hq
        rw [idsOf_append, idsOf_append] at hq
        rcases List.mem_append.1 hq with hq | hq
        · rcases List.mem_append.1 hq with hq | hq
          · have := hb _ hq
            omega
          · simp [idsOf] at hq
            omega
        · simp [idsOf] at hq
      have hih := ih
        ((A ++ [({ id := e, transitions := [(Transition.epsilon, nid)],
                   accepting := false } : State)]) ++
          [({ id := nid, transitions := [(Transition.char c, nid + 1)],
              accepting := false } : State)])
        (nid + 1) (nid + 2)
        (fun c' hc' => hlit c' (List.mem_cons_of_mem _ hc'))
        (List.cons_ne_nil _ _) hb' (by omega) he'
      rw [List.cons_append] at hih
      rw [hih]
      have hnfa : ({ states :=
                       (((A ++ [({ id := e, transitions := [(Transition.epsilon, nid)],
                                   accepting := false } : State)]) ++
                         [({ id := nid, transitions := [(Transition.char c, nid + 1)],
                             accepting := false } : State)]) ++
                         [{ id := nid + 1, transitions := [(Transition.epsilon, nid + 2)],
                            accepting := false }]) ++ chainFrom (d :: w'') (nid + 2),
                     initial := init } : NFA) =
          { states :=
              (A ++ [{ id := e, transitions := [(Transition.epsilon, nid)],
                       accepting := false }]) ++ chainFrom (c :: d :: w'') nid,
            initial := init } := by
        congr 1
        show _ = (A ++ [({ id := e, transitions := [(Transition.epsilon, nid)],
                           accepting := false } : State)]) ++
            chainFrom (c :: d :: w'') nid
        simp [chainFrom, List.append_assoc]
      rw [hnfa]
      have harith : nid + 2 + 2 * (d :: w'').length =
          nid + 2 * ((c :: d :: w'') : List Char).length := by
        simp [List.length_cons]
        omega
      rw [harith]

theorem fullChain_of_ne (w : List Char) (i : Nat) (hw : w ≠ []) :
    fullChain w i =
      { states :=
          { id := i, transitions := [(Transition.epsilon, i + 1)],
            accepting := false } :: chainFrom w (i + 1),
        initial := i } := by
  simp [fullChain, hw]

theorem scan_words (ws : List (List Char)) :
    ∀ (w : List Char) (nid : Nat) (acc : List NFA) (j : Nat) (sy0 : List Symbol)
      (tail : List Char),
      (∀ u ∈ w :: ws, u ≠ [] ∧ ∀ c ∈ u, c ≠ '(' ∧ c ≠ ')' ∧ c ≠ '|') →
      scan (alternationChars w ws ++ ')' :: tail)
        (orRep j ++ Symbol.leftParen :: sy0, NFA.new nid :: acc, nid + 1) =
      scan (')' :: tail)
        (orRep (j + ws.length) ++ Symbol.leftParen :: sy0,
         (chainStack w ws nid).1 ++ acc, (chainStack w ws nid).2) := by
  induction ws with
  | nil =>
    intro w nid acc j sy0 tail hws
    obtain ⟨hne, hlit⟩ := hws w (List.mem_cons_self _ _)
    show scan (w ++ ')' :: tail)
        (orRep j ++ Symbol.leftParen :: sy0, NFA.new nid :: acc, nid + 1) =
      scan (')' :: tail)
        (orRep j ++ Symbol.leftParen :: sy0,
         fullChain w nid :: acc, nid + 1 + 2 * w.length)
    have h := scan_word w (Or.inr rfl) tail (orRep j ++ Symbol.leftParen :: sy0)
      acc nid [] nid (nid + 1) hlit hne (by simp [idsOf]) (by omega) (by simp [idsOf])
    refine h.trans ?_
    have htop : ({ states :=
                     ([] ++ [{ id := nid, transitions := [(Transition.epsilon, nid + 1)],
                               accepting := false }]) ++ chainFrom w (nid + 1),
                   initial := nid } : NFA) = fullChain w nid := by
      rw [fullChain_of_ne w nid hne, List.nil_append, List.singleton_append]
    rw [htop]
  | cons w2 ws' ih =>
    intro w nid acc j sy0 tail hws
    obtain ⟨hne, hlit⟩ := hws w (List.mem_cons_self _ _)
    have hws' : ∀ u ∈ w2 :: ws', u ≠ [] ∧ ∀ c ∈ u, c ≠ '(' ∧ c ≠ ')' ∧ c ≠ '|' :=
      fun u hu => hws u (List.mem_cons_of_mem _ hu)
    show scan ((w ++ '|' :: alternationChars w2 ws') ++ ')' :: tail)
        (orRep j ++ Symbol.leftParen :: sy0, NFA.new nid :: acc, nid + 1) =
      scan (')' :: tail)
        (orRep (j + (w2 :: ws').length) ++ Symbol.leftParen :: sy0,
         ((chainStack w2 ws' (nid + 1 + 2 * w.length)).1 ++ [fullChain w nid]) ++ acc,
         (chainStack w2 ws' (nid + 1 + 2 * w.length)).2)
    rw [List.append_assoc (chainStack w2 ws' (nid + 1 + 2 * w.length)).1
      [fullChain w nid] acc, List.singleton_append,
      List.append_assoc w ('|' :: alternationChars w2 ws') (')' :: tail),
      List.cons_append]
    have h := scan_word w (Or.inl rfl) (alternationChars w2 ws' ++ ')' :: tail)
      (orRep j ++ Symbol.leftParen :: sy0) acc nid [] nid (nid + 1) hlit hne
      (by simp [idsOf]) (by omega) (by simp [idsOf])
    refine h.trans ?_
    rw [scan_pipe]
    have horrep : Symbol.or :: (orRep j ++ Symbol.leftParen :: sy0) =
        orRep (j + 1) ++ Symbol.leftParen :: sy0 := rfl
    rw [horrep]
    have htop : ({ states :=
                     ([] ++ [{ id := nid, transitions := [(Transition.epsilon, nid + 1)],
                               accepting := false }]) ++ chainFrom w (nid + 1),
                   initial := nid } : NFA) = fullChain w nid := by
      rw [fullChain_of_ne w nid hne, List.nil_append, List.singleton_append]
    rw [htop]
    have hih := ih w2 (nid + 1 + 2 * w.length) (fullChain w nid :: acc) (j + 1)
      sy0 tail hws'
    have harith : j + 1 + ws'.length = j + (w2 :: ws').length := by
      simp [List.length_cons]
      omega
    rw [harith] at hih
    exact hih

theorem chainStack_facts (ws : List (List Char)) :
    ∀ (w : List Char) (nid : Nat),
      (∀ u ∈ w :: ws, u ≠ []) →
      (chainStack w ws nid).1.length = ws.length + 1 ∧
      (∀ n ∈ (chainStack w ws nid).1, WfNFA n (chainStack w ws nid).2) ∧
      (∀ n ∈ (chainStack w ws nid).1, ∀ q ∈ idsOf n.states, nid ≤ q) ∧
      List.Pairwise (fun a b => ∀ q, q ∈ idsOf a.states → q ∉ idsOf b.states)
        (chainStack w ws nid).1 ∧
      (∀ v, (∃ n ∈ (chainStack w ws nid).1, Accepts n.states n.initial v) ↔
        ∃ u ∈ w :: ws, v = u) := by
  induction ws with
  | nil =>
    intro w nid hne
    have hnew : w ≠ [] := hne w (List.mem_cons_self _ _)
    simp only [chainStack]
    refine ⟨by simp, ?_, ?_, ?_, ?_⟩
    · intro n hn
      rw [List.mem_singleton] at hn
      subst hn
      exact (fullChain_wf w nid).mono (by omega)
    · intro n hn
      rw [List.mem_singleton] at hn
      subst hn
      exact fullChain_lowBound w nid
    · exact List.pairwise_singleton _ _
    · intro v
      constructor
      · rintro ⟨n, hn, ha⟩
        rw [List.mem_singleton] at hn
        subst hn
        exact ⟨w, List.mem_cons_self _ _, (fullChain_lang w nid hnew v).1 ha⟩
      · rintro ⟨u, hu, he⟩
        rcases List.mem_cons.1 hu with h1 | h1
        · refine ⟨fullChain w nid, List.mem_singleton.2 rfl, ?_⟩
          rw [he, h1]
          exact (fullChain_lang w nid hnew w).2 rfl
        · cases h1
  | cons w2 ws' ih =>
    intro w nid hne
    have hnew : w ≠ [] := hne w (List.mem_cons_self _ _)
    have hne' : ∀ u ∈ w2 :: ws', u ≠ [] := fun u hu => hne u (List.mem_cons_of_mem _ hu)
    obtain ⟨ihlen, ihwf, ihlow, ihpw, ihlang⟩ := ih w2 (nid + 1 + 2 * w.length) hne'
    have hmle : nid + 1 + 2 * w.length ≤
        (chainStack w2 ws' (nid + 1 + 2 * w.length)).2 := by
      by_cases hempty : (chainStack w2 ws' (nid + 1 + 2 * w.length)).1 = []
      · rw [hempty] at ihlen
        simp at ihlen
      · obtain ⟨n0, hn0⟩ := List.exists_mem_of_ne_nil _ hempty
        have hinit := (ihwf n0 hn0).init_mem
        have h1 := ihlow n0 hn0 _ hinit
        have h2 := (ihwf n0 hn0).bounded _ hinit
        omega
    simp only [chainStack]
    refine ⟨?_, ?_, ?_, ?_, ?_⟩
    · simp [ihlen]
    · intro n hn
      rcases List.mem_append.1 hn with hn | hn
      · exact ihwf n hn
      · rw [List.mem_singleton] at hn
        subst hn
        exact (fullChain_wf w nid).mono (by omega)
    · intro n hn
      rcases List.mem_append.1 hn with hn | hn
      · intro q hq
        have := ihlow n hn q hq
        omega
      · rw [List.mem_singleton] at hn
        subst hn
        exact fullChain_lowBound w nid
    · rw [List.pairwise_append]
      refine ⟨ihpw, List.pairwise_singleton _ _, ?_⟩
      intro a ha b hb q hqa hqb
      rw [List.mem_singleton] at hb
      subst hb
      have h1 := ihlow a ha q hqa
      have h2 := (fullChain_wf w nid).bounded q hqb
      omega
    · intro v
      constructor
      · rintro ⟨n, hn, ha⟩
        rcases List.mem_append.1 hn with hn | hn
        · obtain ⟨u, hu, he⟩ := (ihlang v).1 ⟨n, hn, ha⟩
          exact ⟨u, List.mem_cons_of_mem _ hu, he⟩
        · rw [List.mem_singleton] at hn
          subst hn
          exact ⟨w, List.mem_cons_self _ _, (fullChain_lang w nid hnew v).1 ha⟩
      · rintro ⟨u, hu, he⟩
        rcases List.mem_cons.1 hu with h1 | h1
        · refine ⟨fullChain w nid,
            List.mem_append_right _ (List.mem_singleton.2 rfl), ?_⟩
          rw [he, h1]
          exact (fullChain_lang w nid hnew w).2 rfl
        · obtain ⟨n, hn, ha⟩ := (ihlang v).2 ⟨u, h1, he⟩
          exact ⟨n, List.mem_append_left _ hn, ha⟩

theorem reduceToParen_no_lookahead (sy : List Symbol) (nfas : List NFA) (nid : Nat) :
    isLookaheadPanic (reduceToParen sy nfas nid) = false := by
  induction sy generalizing nfas nid with
  | nil => rfl
  | cons s sy ih =>
    cases s with
    | leftParen => rfl
    | or =>
      match nfas with
      | [] => rfl
      | [n1] => rfl
      | n1 :: n2 :: rest => exact ih (n1.merge_other n2 nid :: rest) (nid + 1)

theorem scan_no_lookahead (cs : List Char) (st : List Symbol × List NFA × Nat)
    (h : cs.getLast? = some ')' ∨ cs = []) :
    isLookaheadPanic (scan cs st) = false := by
  induction cs generalizing st with
  | nil => rfl
  | cons c cs ih =>
    obtain ⟨sy, nfas, nid⟩ := st
    have hlast : cs.getLast? = some ')' ∨ cs = [] := by
      rcases h with h | h
      · cases cs with
        | nil => right; rfl
        | cons d ds => left; rw [List.getLast?_cons_cons] at h; exact h
      · cases h
    by_cases h1 : c = '('
    · subst h1
      rw [scan_lparen]
      exact ih _ hlast
    by_cases h2 : c = ')'
    · subst h2
      rw [scan_rparen]
      cases hr : reduceToParen sy nfas nid with
      | ok st' => exact ih st' hlast
      | error e =>
        have hnl := reduceToParen_no_lookahead sy nfas nid
        rw [hr] at hnl
        exact hnl
    by_cases h3 : c = '|'
    · subst h3
      rw [scan_pipe]
      exact ih _ hlast
    · cases cs with
      | nil =>
        rcases h with h | h
        · simp [List.getLast?] at h
          exact absurd h h2
        · cases h
      | cons nc cs' =>
        rw [scan_other c (nc :: cs') sy nfas nid h1 h2 h3]
        rw [List.head?_cons]
        cases hr : literalStep c (some nc) nfas nid with
        | ok p =>
          obtain ⟨nfas', nid'⟩ := p
          exact ih _ hlast
        | error e =>
          cases nfas with
          | nil =>
            simp only [literalStep] at hr
            cases hr
            rfl
          | cons nfa rest =>
            cases hg : nfa.states.getLast? with
            | none =>
              simp only [literalStep, hg] at hr
              cases hr
              rfl
            | some last =>
              rw [literalStep_ok c nc nfa rest nid last hg] at hr
              cases hr

/-- C10.  The one-character lookahead `token.chars().nth(idx + 1).unwrap()`
of the literal branch never panics, on any input pattern: the wrapped
pattern ends in `)`, which the literal branch never processes, so a
character always exists after the current one. -/
theorem C10_lookahead_never_panics (t : Token) :
    isLookaheadPanic (NFA.new_from_token t) = false := by
  have h : isLookaheadPanic (scan (('(' :: t.value.data) ++ [')']) ([], [], 0)) = false :=
    scan_no_lookahead _ _ (Or.inl (by
      have := getLast?_append_singleton ('(' :: t.value.data) ')'
      exact this))
  unfold NFA.new_from_token
  cases hs : scan (('(' :: t.value.data) ++ [')']) ([], [], 0) with
  | ok st =>
    obtain ⟨sy', nfas', nid'⟩ := st
    cases nfas' with
    | nil => rfl
    | cons nfa rest => rfl
  | error e =>
    rw [hs] at h
    cases e with
    | lookaheadFail => simp [isLookaheadPanic] at h
    | symbolStackEmpty => rfl
    | nfaStackEmpty => rfl
    | statesEmpty => rfl

-- Sanity checks of the embedding on the concrete examples of the spec.
example :
    NFA.new_from_token { kind := "char", value := "a" } =
      Except.ok
        { states :=
            [{ id := 0, transitions := [(Transition.epsilon, 1)], accepting := false },
             { id := 1, transitions := [(Transition.char 'a', 2)], accepting := false },
             { id := 2, transitions := [], accepting := true }],
          initial := 0 } := by decide

example :
    NFA.new_from_token { kind := "char", value := "" } =
      Except.ok { states := [{ id := 0, transitions := [], accepting := false }], initial := 0 } := by
  decide

/-- C1.  For every alternation of one or more nonempty literal-only words
(no `(`, `)` or `|` inside a word), `new_from_token` succeeds and the
automaton accepts — consuming the whole input and ending in an accepting
state — exactly the given words and no other string. -/
theorem C1_alternation_of_literal_words (k : String) (w : List Char)
    (ws : List (List Char))
    (hne : ∀ u ∈ w :: ws, u ≠ [])
    (hlit : ∀ u ∈ w :: ws, ∀ c ∈ u, c ≠ '(' ∧ c ≠ ')' ∧ c ≠ '|') :
    ∃ n,
      NFA.new_from_token
          { kind := k, value := String.mk (alternationChars w ws) } =
        Except.ok n ∧
      ∀ v, (n.accepts v ↔ v ∈ w :: ws) := by
  have hws : ∀ u ∈ w :: ws, u ≠ [] ∧ ∀ c ∈ u, c ≠ '(' ∧ c ≠ ')' ∧ c ≠ '|' :=
    fun u hu => ⟨hne u hu, hlit u hu⟩
  obtain ⟨hlen, hwfall, hlow, hpw, hlang⟩ := chainStack_facts ws w 0 hne
  cases hstack : (chainStack w ws 0).1 with
  | nil =>
    rw [hstack] at hlen
    simp at hlen
  | cons N Ns =>
  rw [hstack] at hlen hwfall hpw hlang
  have hNslen : Ns.length = ws.length := by
    simp only [List.length_cons] at hlen
    omega
  have hwfN := hwfall N (List.mem_cons_self _ _)
  have hwfNs : ∀ n ∈ Ns, WfNFA n ((chainStack w ws 0).2) :=
    fun n hn => hwfall n (List.mem_cons_of_mem _ hn)
  have hml := mergeFold_lang Ns N ((chainStack w ws 0).2) hwfN hwfNs hpw
  have hchain : scan (alternationChars w ws ++ [')'])
      ([Symbol.leftParen], [NFA.new 0], 1) =
      Except.ok ([], [(mergeFold N Ns ((chainStack w ws 0).2)).1],
        (mergeFold N Ns ((chainStack w ws 0).2)).2) := by
    have h1 := scan_words ws w 0 [] 0 [] [] hws
    refine h1.trans ?_
    rw [List.append_nil, Nat.zero_add, hstack, scan_rparen]
    have hred := reduceToParen_orRep ws.length N Ns [] [] ((chainStack w ws 0).2)
      hNslen
    rw [List.append_nil] at hred
    rw [hred]
    rfl
  refine ⟨(mergeFold N Ns ((chainStack w ws 0).2)).1, ?_, ?_⟩
  · unfold NFA.new_from_token
    rw [show (String.mk (alternationChars w ws)).data = alternationChars w ws
      from rfl]
    rw [List.cons_append, scan_lparen, Nat.zero_add, hchain]
  · intro v
    show Accepts (mergeFold N Ns ((chainStack w ws 0).2)).1.states
        (mergeFold N Ns ((chainStack w ws 0).2)).1.initial v ↔ _
    rw [hml.2 v]
    have hsplit : (Accepts N.states N.initial v ∨
        ∃ n ∈ Ns, Accepts n.states n.initial v) ↔
        (∃ n ∈ N :: Ns, Accepts n.states n.initial v) := by
      constructor
      · rintro (ha | ⟨n, hn, ha⟩)
        · exact ⟨N, List.mem_cons_self _ _, ha⟩
        · exact ⟨n, List.mem_cons_of_mem _ hn, ha⟩
      · rintro ⟨n, hn, ha⟩
        rcases List.mem_cons.1 hn with rfl | hn
        · exact Or.inl ha
        · exact Or.inr ⟨n, hn, ha⟩
    rw [hsplit, hlang v]
    constructor
    · rintro ⟨u, hu, he⟩
      rw [he]
      exact hu
    · intro hv
      exact ⟨v, hv, rfl⟩

/-- Witness for C1 at the pattern `a|b|c`: the automaton accepts exactly
the words `a`, `b`, `c`. -/
theorem C1_alternation_of_literal_words_witness :
    ∃ n,
      NFA.new_from_token
          { kind := "x", value := String.mk (alternationChars ['a'] [['b'], ['c']]) } =
        Except.ok n ∧
      ∀ v, (n.accepts v ↔ v ∈ ['a'] :: [['b'], ['c']]) :=
  C1_alternation_of_literal_words "x" ['a'] [['b'], ['c']] (by decide) (by decide)

/-- C2.  When the builder scans a literal character `c` with lookahead
`nc`, the NFA on top of the operand stack gains exactly two new states:
`state1` (id `nid`) and `state2` (id `nid + 1`), with an Epsilon
transition from the state most recently appended to that NFA (its last
state, which is its initial state when nothing has been appended yet) to
`state1`, a `Char c` transition from `state1` to `state2`, and `state2`
accepting if and only if the lookahead character is `|` or `)`. -/
theorem C2_literal_branch_two_states (sy : List Symbol) (nfa : NFA)
    (nfas : List NFA) (nid : Nat) (c nc : Char) (cs : List Char)
    (h : nfa.states ≠ []) (h1 : c ≠ '(') (h2 : c ≠ ')') (h3 : c ≠ '|') :
    scan (c :: nc :: cs) (sy, nfa :: nfas, nid) =
      scan (nc :: cs)
        (sy,
          { states :=
              addTransitionTo nfa.states (nfa.states.getLast h).id
                  Transition.epsilon nid ++
                [{ id := nid, transitions := [(Transition.char c, nid + 1)],
                   accepting := false },
                 { id := nid + 1, transitions := [],
                   accepting := nc == '|' || nc == ')' }],
            initial := nfa.initial } :: nfas, nid + 2) := by
  rw [scan_literal c nc cs sy nfa nfas nid (nfa.states.getLast h) h1 h2 h3
    (List.getLast?_eq_getLast _ h)]
  rfl

/-- Witness for C2: one literal step on the fresh one-state NFA of an open
group, scanning `a` with lookahead `)`. -/
theorem C2_literal_branch_two_states_witness :
    scan ['a', ')'] ([], [NFA.new 0], 1) =
      scan [')']
        ([],
          [{ states :=
               [{ id := 0, transitions := [(Transition.epsilon, 1)], accepting := false },
                { id := 1, transitions := [(Transition.char 'a', 2)], accepting := false },
                { id := 2, transitions := [], accepting := true }],
             initial := 0 }], 3) := by
  rw [C2_literal_branch_two_states [] (NFA.new 0) [] 1 'a' ')' []
    (by decide) (by decide) (by decide) (by decide)]
  decide

/-- C3.  The builder has no notion of an unsupported construct: on the
pattern `[0-9]+` it succeeds and compiles `[`, `0`, `-`, `9`, `]`, `+` as
literal `Char` transitions, instead of failing with an
`UnsupportedConstructError` (no such error exists in the code). -/
theorem C3_unsupported_syntax_built_as_literals :
    (NFA.new_from_token { kind := "INT", value := "[0-9]+" }).isOk = true ∧
    (NFA.new_from_token { kind := "INT", value := "[0-9]+" }).map
        (fun n => hasCharTransition n '[' && hasCharTransition n '+' &&
          hasCharTransition n ']' && hasCharTransition n '-') =
      Except.ok true := by
  decide

/-- C4.  The builder has no `SyntaxError`: on the unbalanced pattern `a)`
it panics (the `symbol_stack.last().unwrap()` of the `)` branch fires on an
empty stack), and on the unbalanced pattern `(a` it silently succeeds and
returns an automaton instead of reporting the unmatched parenthesis. -/
theorem C4_unbalanced_parens_panic_or_silent :
    NFA.new_from_token { kind := "x", value := "a)" } =
      Except.error BuildPanic.symbolStackEmpty ∧
    (NFA.new_from_token { kind := "x", value := "(a" }).isOk = true := by
  decide

/-- C5 counterexample.  On the pattern `(a)b` the literal branch wires the
accepting tail of the finished group `(a)` (state 3) into the following
`b` chain with an Epsilon transition but never clears its accepting flag:
in the returned automaton state 3 is still accepting even though it does
not end the (only) complete alternative `ab` — the automaton also accepts
the strict prefix `a`. -/
theorem C5_tail_not_cleared_counterexample :
    NFA.new_from_token { kind := "x", value := "(a)b" } =
      Except.ok
        { states :=
            [{ id := 1, transitions := [(Transition.epsilon, 2)], accepting := false },
             { id := 2, transitions := [(Transition.char 'a', 3)], accepting := false },
             { id := 3, transitions := [(Transition.epsilon, 4)], accepting := true },
             { id := 4, transitions := [(Transition.char 'b', 5)], accepting := false },
             { id := 5, transitions := [], accepting := true }],
          initial := 1 } ∧
    Accepts
        [{ id := 1, transitions := [(Transition.epsilon, 2)], accepting := false },
         { id := 2, transitions := [(Transition.char 'a', 3)], accepting := false },
         { id := 3, transitions := [(Transition.epsilon, 4)], accepting := true },
         { id := 4, transitions := [(Transition.char 'b', 5)], accepting := false },
         { id := 5, transitions := [], accepting := true }]
        1 ['a'] := by
  refine ⟨by decide, ?_⟩
  refine Accepts.viaEps 1
    { id := 1, transitions := [(Transition.epsilon, 2)], accepting := false }
    2 ['a'] (by decide) (by decide) ?_
  refine Accepts.viaChar 2
    { id := 2, transitions := [(Transition.char 'a', 3)], accepting := false }
    'a' 3 [] (by decide) (by decide) ?_
  exact Accepts.done 3
    { id := 3, transitions := [(Transition.epsilon, 4)], accepting := true }
    (by decide) (by decide)

/-- C5 amended.  For parenthesis-free patterns no accepting state is ever
used as a tail: in the finished automaton every accepting state has no
outgoing transitions, so only states ending a completed alternative remain
accepting.  (`connect_other` does clear the flags of the tails it wires —
see C8 — but the builder never calls it, and the literal branch clears
nothing, which is what breaks the claim on `(a)b`.) -/
theorem C5_amended_parenfree_accepting_states_are_tails (k : String)
    (p : List Char) (hfree : ∀ c ∈ p, c ≠ '(' ∧ c ≠ ')') :
    ∃ n, NFA.new_from_token { kind := k, value := String.mk p } = Except.ok n ∧
      ∀ st ∈ n.states, st.accepting = true → st.transitions = [] := by
  obtain ⟨n, nid', _, hok, hAcc⟩ := build_pf k p hfree
  exact ⟨n, hok, hAcc⟩

/-- Witness for the amended C5 at the pattern `a|b`. -/
theorem C5_amended_parenfree_accepting_states_are_tails_witness :
    ∃ n, NFA.new_from_token { kind := "x", value := String.mk ['a', '|', 'b'] } =
        Except.ok n ∧
      ∀ st ∈ n.states, st.accepting = true → st.transitions = [] :=
  C5_amended_parenfree_accepting_states_are_tails "x" ['a', '|', 'b'] (by decide)

/-- C6 counterexample.  On the pattern `(a)` the builder completes, yet
after the final `)` of the wrapped pattern `((a))` is processed the
operand stack still holds two NFAs (the group's automaton and the
abandoned automaton of the enclosing scope): `new_from_token` returns the
top one and discards the other. -/
theorem C6_two_nfas_remain_counterexample :
    (scan (('(' :: "(a)".data) ++ [')']) ([], [], 0)).map
        (fun st => st.2.1.length) = Except.ok 2 ∧
    NFA.new_from_token { kind := "x", value := "(a)" } =
      Except.ok
        { states :=
            [{ id := 1, transitions := [(Transition.epsilon, 2)], accepting := false },
             { id := 2, transitions := [(Transition.char 'a', 3)], accepting := false },
             { id := 3, transitions := [], accepting := true }],
          initial := 1 } := by
  decide

/-- C6 amended.  For parenthesis-free patterns exactly one NFA remains on
the operand stack after the final `)` of the wrapped pattern is processed,
and `new_from_token` returns it (in general it returns the top of the
final stack, which may hold further abandoned NFAs — see the
counterexample `(a)`). -/
theorem C6_amended_parenfree_single_nfa_remains (k : String)
    (p : List Char) (hfree : ∀ c ∈ p, c ≠ '(' ∧ c ≠ ')') :
    ∃ n nid',
      scan (('(' :: p) ++ [')']) ([], [], 0) = Except.ok ([], [n], nid') ∧
      NFA.new_from_token { kind := k, value := String.mk p } = Except.ok n := by
  obtain ⟨n, nid', hscan, hok, _⟩ := build_pf k p hfree
  exact ⟨n, nid', hscan, hok⟩

/-- Witness for the amended C6 at the pattern `ab`. -/
theorem C6_amended_parenfree_single_nfa_remains_witness :
    ∃ n nid',
      scan (('(' :: ['a', 'b']) ++ [')']) ([], [], 0) = Except.ok ([], [n], nid') ∧
      NFA.new_from_token { kind := "x", value := String.mk ['a', 'b'] } =
        Except.ok n :=
  C6_amended_parenfree_single_nfa_remains "x" ['a', 'b'] (by decide)

/-- C7.  Every state of an NFA returned by `new_from_token` is reachable
from its initial state by zero or more transitions: no orphan state
survives construction. -/
theorem C7_every_state_reachable (t : Token) (n : NFA)
    (h : NFA.new_from_token t = Except.ok n) :
    ∀ st ∈ n.states, Reach n.states n.initial st.id := by
  unfold NFA.new_from_token at h
  cases hs : scan (('(' :: t.value.data) ++ [')']) ([], [], 0) with
  | ok st3 =>
    rw [hs] at h
    obtain ⟨sy', nfas', nid'⟩ := st3
    cases nfas' with
    | nil => cases h
    | cons nfa rest =>
      cases h
      have hinv := scan_inv _ _ _ _ _ _ _ buildInv_nil hs
      exact hinv.2 _ (List.mem_cons_self _ _)
  | error e =>
    rw [hs] at h
    cases h

/-- Witness for C7: in the automaton built for the pattern `a`, the
accepting state (id 2) is reachable from the initial state (id 0). -/
theorem C7_every_state_reachable_witness :
    Reach
      [{ id := 0, transitions := [(Transition.epsilon, 1)], accepting := false },
       { id := 1, transitions := [(Transition.char 'a', 2)], accepting := false },
       { id := 2, transitions := [], accepting := true }] 0 2 := by
  have h := C7_every_state_reachable { kind := "x", value := "a" }
    { states :=
        [{ id := 0, transitions := [(Transition.epsilon, 1)], accepting := false },
         { id := 1, transitions := [(Transition.char 'a', 2)], accepting := false },
         { id := 2, transitions := [], accepting := true }],
      initial := 0 } (by decide)
  exact h { id := 2, transitions := [], accepting := true } (by decide)

/-- C8.  `connect_other` keeps `self`'s initial state, absorbs every state
of `other`, rewrites every accepting state of `self` to a non-accepting
state with a new Epsilon transition to `other`'s initial state, keeps the
non-accepting states of `self` unchanged, and leaves no state of `self`
accepting: every accepting state of the result comes from `other`. -/
theorem C8_connect_other_clears_and_absorbs (self other : NFA) :
    (self.connect_other other).initial = self.initial ∧
    (∀ st ∈ other.states, st ∈ (self.connect_other other).states) ∧
    (∀ st ∈ self.states, st.accepting = true →
      { st with
          accepting := false,
          transitions := st.transitions ++ [(Transition.epsilon, other.initial)] } ∈
        (self.connect_other other).states) ∧
    (∀ st ∈ self.states, st.accepting = false →
      st ∈ (self.connect_other other).states) ∧
    (∀ st ∈ (self.connect_other other).states, st.accepting = true →
      st ∈ other.states) := by
  refine ⟨rfl, ?_, ?_, ?_, ?_⟩
  · intro st h
    exact List.mem_append_right _ h
  · intro st h ha
    refine List.mem_append_left _ ?_
    refine List.mem_map.2 ⟨st, h, ?_⟩
    simp [ha]
  · intro st h ha
    refine List.mem_append_left _ ?_
    refine List.mem_map.2 ⟨st, h, ?_⟩
    simp [ha]
  · intro st h ha
    rcases List.mem_append.1 h with h' | h'
    · rcases List.mem_map.1 h' with ⟨st', _, rfl⟩
      by_cases hacc : st'.accepting = true
      · simp only [if_pos hacc] at ha
        simp at ha
      · simp only [if_neg hacc] at ha
        exact absurd ha hacc
    · exact h'

/-- C9.  The empty pattern builds successfully: the result is the one-state
automaton `NFA::new()` produced for the implicit group — a single
non-accepting initial state with no transitions — and that automaton
accepts no string at all, not even the empty one. -/
theorem C9_empty_pattern_accepts_nothing (k : String) :
    NFA.new_from_token { kind := k, value := "" } =
      Except.ok
        { states := [{ id := 0, transitions := [], accepting := false }], initial := 0 } ∧
    ∀ w q, Accepts [{ id := 0, transitions := [], accepting := false }] q w ↔ False := by
  constructor
  · rfl
  · intro w q
    simp only [iff_false]
    intro h
    induction h with
    | done q st hl ha =>
        rw [lookupState_cons] at hl
        split_ifs at hl with h0
        · cases hl; simp at ha
        · rw [lookupState_nil] at hl; cases hl
    | viaChar q st c q' w hl hm _ ih =>
        rw [lookupState_cons] at hl
        split_ifs at hl with h0
        · cases hl; simp at hm
        · rw [lookupState_nil] at hl; cases hl
    | viaEps q st q' w hl hm _ ih =>
        rw [lookupState_cons] at hl
        split_ifs at hl with h0
        · cases hl; simp at hm
        · rw [lookupState_nil] at hl; cases hl

end OvLex
